import Mathlib

/-!
Shallow embedding of `httpx/_urlparse.py` (single source file of the
repository) and proofs about it.

Python strings are modelled as `List Char` (abbreviated `Str`); Python
`Optional[str]` values as `Option Str`.  Each definition below mirrors one
function or constant of the source file; comments cite the source lines.
-/

namespace UrlParse

abbrev Str := List Char

/-- The apostrophe character (code point 39), written numerically. -/
def apos : Char := Char.ofNat 39

/-- `MAX_URL_LENGTH = 65536` (source line 26). -/
def MAX_URL_LENGTH : Nat := 65536

/-- `UNRESERVED_CHARACTERS` (source lines 29-31). -/
def UNRESERVED_CHARACTERS : Str :=
  "ABCDEFGHIJKLMNOPQRSTUVWXYZabcdefghijklmnopqrstuvwxyz0123456789-._~".toList

/-- `SUB_DELIMS = "!$&'()*+,;="` (source line 32); the apostrophe is written
numerically. -/
def SUB_DELIMS : Str := ['!', '$', '&', apos, '(', ')', '*', '+', ',', ';', '=']

/-- Python `char.isascii()`: code point at most 127. -/
def pyIsAscii (c : Char) : Bool := c.toNat ≤ 127

/-- Python `char.isascii() and not char.isprintable()` (source lines 159, 216).
For ASCII characters, `isprintable` is exactly the range 0x20..0x7E. -/
def asciiNonPrintable (c : Char) : Bool :=
  pyIsAscii c && (c.toNat < 32 || c.toNat == 127)

/-- Printable ASCII (0x20..0x7E), the character set the spec's invariants
talk about. -/
def printableAscii (c : Char) : Bool :=
  32 ≤ c.toNat && c.toNat ≤ 126

/-- Python `s.split(sep)` for a one-character separator: keeps empty pieces,
`"".split(sep) == [""]`. -/
def pySplit (sep : Char) : Str → List Str
  | [] => [[]]
  | c :: r =>
      let t := pySplit sep r
      if c = sep then [] :: t
      else (c :: t.headI) :: t.tail

/-- Python `sep.join(pieces)` for a one-character separator. -/
def pyJoin (sep : Char) : List Str → Str
  | [] => []
  | [x] => x
  | x :: y :: t => x ++ sep :: pyJoin sep (y :: t)

/-- One iteration of the loop in `normalize_path` (source lines 379-386):
`"."` is dropped, `".."` pops the last retained segment unless the retained
list is empty or is exactly `[""]`, anything else is appended. -/
def dotSegmentStep (output : List Str) (component : Str) : List Str :=
  if component = ['.'] then output
  else if component = ['.', '.'] then
    if output ≠ [] ∧ output ≠ [[]] then output.dropLast else output
  else output ++ [component]

/-- `normalize_path` (source lines 368-387). -/
def normalize_path (path : Str) : Str :=
  pyJoin '/' (List.foldl dotSegmentStep [] (pySplit '/' path))

/-! ## Percent-Codec (source lines 34, 390-413) -/

/-- The character class `[A-Fa-f0-9]` of `PERCENT_ENCODED_REGEX`
(source line 34). -/
def isHexDigitPy (c : Char) : Bool :=
  (48 ≤ c.toNat && c.toNat ≤ 57) || (65 ≤ c.toNat && c.toNat ≤ 70) ||
    (97 ≤ c.toNat && c.toNat ≤ 102)

/-- Python `string.count(char)`. -/
def pyCount (c : Char) : Str → Nat
  | [] => 0
  | a :: r => (if a = c then 1 else 0) + pyCount c r

/-- `len(PERCENT_ENCODED_REGEX.findall(string))` (source line 406): the number
of non-overlapping `%xx` matches found scanning left to right (the scanner
advances three characters past a match and one character otherwise). -/
def PERCENT_ENCODED_count : Str → Nat
  | [] => 0
  | [_] => 0
  | [_, _] => 0
  | c :: a :: b :: r2 =>
      if c = '%' && isHexDigitPy a && isHexDigitPy b then
        PERCENT_ENCODED_count r2 + 1
      else PERCENT_ENCODED_count (a :: b :: r2)

/-- Every occurrence of `'%'` in the string is immediately followed by two hex
digits (the well-formedness property behind the idempotence rule of `quote`). -/
def percentsEscaped : Str → Bool
  | [] => true
  | [c] => c != '%'
  | [c, d] => c != '%' && d != '%'
  | c :: a :: b :: r2 =>
      if c = '%' then isHexDigitPy a && isHexDigitPy b && percentsEscaped r2
      else percentsEscaped (a :: b :: r2)

/-- `"".join(pieces)` where every element of `s` contributes `f`-many
characters; used to model the per-character joins in `quote` and
`percent_encode`. -/
def concatMap {α : Type} (f : α → Str) : List α → Str
  | [] => []
  | x :: r => f x ++ concatMap f r

/-- The UTF-8 encoding of one character, as byte values (`char.encode("utf-8")`
at source line 401). -/
def utf8Bytes (c : Char) : List Nat :=
  if c.toNat < 128 then [c.toNat]
  else if c.toNat < 2048 then [192 + c.toNat / 64, 128 + c.toNat % 64]
  else if c.toNat < 65536 then
    [224 + c.toNat / 4096, 128 + c.toNat / 64 % 64, 128 + c.toNat % 64]
  else
    [240 + c.toNat / 262144, 128 + c.toNat / 4096 % 64, 128 + c.toNat / 64 % 64,
      128 + c.toNat % 64]

/-- Upper-case hexadecimal digit for a value below 16. -/
def hexDigitUpper (n : Nat) : Char :=
  if n < 10 then Char.ofNat (48 + n) else Char.ofNat (55 + n)

/-- `"%XX"` for one byte. The source formats each byte with lowercase `%{b:02x}`
and applies `.upper()` to the whole join (source line 401); since the join
contains only `%` and hex digits this equals formatting in uppercase directly. -/
def pctByte (b : Nat) : Str :=
  ['%', hexDigitUpper (b / 16), hexDigitUpper (b % 16)]

/-- `percent_encode` (source lines 390-401). -/
def percent_encode (char : Char) : Str :=
  concatMap pctByte (utf8Bytes char)

/-- The local `NON_ESCAPED_CHARS` of `quote` (source lines 405-409):
`UNRESERVED_CHARACTERS + safe`, with `"%"` appended when every `%` of the
input is part of a well-formed `%xx` escape. -/
def quoteNonEscaped (string safe : Str) : Str :=
  if pyCount '%' string = PERCENT_ENCODED_count string then
    UNRESERVED_CHARACTERS ++ safe ++ ['%']
  else UNRESERVED_CHARACTERS ++ safe

/-- `quote` (source lines 404-413). -/
def quote (string : Str) (safe : Str := ['/']) : Str :=
  concatMap
    (fun char =>
      if char ∈ quoteNonEscaped string safe then [char] else percent_encode char)
    string

/-! ### Percent-codec lemmas -/

theorem char_eq_of_toNat {a b : Char} (h : a.toNat = b.toNat) : a = b :=
  Char.eq_of_val_eq (UInt32.ext h)

theorem char_toNat_lt (c : Char) : c.toNat < 1114112 := by
  have hv := c.valid
  show c.val.toNat < 1114112
  rcases hv with h | h <;> omega

theorem hex_ne_pct {c : Char} (h : isHexDigitPy c = true) : c ≠ '%' := by
  intro hc
  subst hc
  simp [isHexDigitPy] at h

theorem count_cons (a c : Char) (r : Str) :
    pyCount c (a :: r) = (if a = c then 1 else 0) + pyCount c r := rfl

theorem pec_le_count : ∀ s, PERCENT_ENCODED_count s ≤ pyCount '%' s := by
  intro s
  induction s using PERCENT_ENCODED_count.induct with
  | case1 => simp [PERCENT_ENCODED_count, pyCount]
  | case2 => simp [PERCENT_ENCODED_count, pyCount]
  | case3 => simp [PERCENT_ENCODED_count, pyCount]
  | case4 c a b r2 h ih =>
      obtain ⟨⟨hc, ha⟩, hb⟩ := by simpa using h
      subst hc
      rw [PERCENT_ENCODED_count, if_pos h]
      have hA : ¬ a = '%' := hex_ne_pct ha
      have hB : ¬ b = '%' := hex_ne_pct hb
      simp only [count_cons, hA, hB, if_pos rfl, if_neg, ite_false, ite_true]
      omega
  | case5 c a b r2 h ih =>
      rw [PERCENT_ENCODED_count, if_neg h]
      by_cases hc : c = '%'
      · rw [count_cons, if_pos hc]
        omega
      · rw [count_cons, if_neg hc]
        omega

theorem pes_iff_count : ∀ s, percentsEscaped s = true ↔
    pyCount '%' s = PERCENT_ENCODED_count s := by
  intro s
  induction s using percentsEscaped.induct with
  | case1 => simp [percentsEscaped, pyCount, PERCENT_ENCODED_count]
  | case2 c =>
      by_cases hc : c = '%' <;>
        simp [percentsEscaped, pyCount, PERCENT_ENCODED_count, hc]
  | case3 c d =>
      by_cases hc : c = '%' <;> by_cases hd : d = '%' <;>
        simp [percentsEscaped, pyCount, PERCENT_ENCODED_count, hc, hd]
  | case4 a b r2 ih =>
      have hle := pec_le_count (a :: b :: r2)
      by_cases ha : isHexDigitPy a = true
      · by_cases hb : isHexDigitPy b = true
        · have hA : ¬ a = '%' := hex_ne_pct ha
          have hB : ¬ b = '%' := hex_ne_pct hb
          have h1 : percentsEscaped ('%' :: a :: b :: r2) = percentsEscaped r2 := by
            simp [percentsEscaped, ha, hb]
          have h2 : PERCENT_ENCODED_count ('%' :: a :: b :: r2) =
              PERCENT_ENCODED_count r2 + 1 := by
            rw [PERCENT_ENCODED_count, if_pos (by simp [ha, hb])]
          have h3 : pyCount '%' ('%' :: a :: b :: r2) = pyCount '%' r2 + 1 := by
            simp only [count_cons, hA, hB, if_pos rfl, ite_false, ite_true, if_neg]
            omega
          rw [h1, h2, h3, ih]
          constructor <;> intro hx <;> omega
        · have hb' : isHexDigitPy b = false := Bool.eq_false_iff.mpr hb
          have h1 : percentsEscaped ('%' :: a :: b :: r2) = false := by
            simp [percentsEscaped, hb']
          have h2 : PERCENT_ENCODED_count ('%' :: a :: b :: r2) =
              PERCENT_ENCODED_count (a :: b :: r2) := by
            rw [PERCENT_ENCODED_count, if_neg (by simp [hb'])]
          have h3 : pyCount '%' ('%' :: a :: b :: r2) =
              pyCount '%' (a :: b :: r2) + 1 := by
            rw [count_cons, if_pos rfl]
            omega
          rw [h1, h2, h3]
          constructor
          · intro hx
            exact absurd hx (by simp)
          · intro hx
            omega
      · have ha' : isHexDigitPy a = false := Bool.eq_false_iff.mpr ha
        have h1 : percentsEscaped ('%' :: a :: b :: r2) = false := by
          simp [percentsEscaped, ha']
        have h2 : PERCENT_ENCODED_count ('%' :: a :: b :: r2) =
            PERCENT_ENCODED_count (a :: b :: r2) := by
          rw [PERCENT_ENCODED_count, if_neg (by simp [ha'])]
        have h3 : pyCount '%' ('%' :: a :: b :: r2) =
            pyCount '%' (a :: b :: r2) + 1 := by
          rw [count_cons, if_pos rfl]
          omega
        rw [h1, h2, h3]
        constructor
        · intro hx
          exact absurd hx (by simp)
        · intro hx
          omega
  | case5 c a b r2 h ih =>
      have h1 : percentsEscaped (c :: a :: b :: r2) =
          percentsEscaped (a :: b :: r2) := by
        simp [percentsEscaped, h]
      have h2 : PERCENT_ENCODED_count (c :: a :: b :: r2) =
          PERCENT_ENCODED_count (a :: b :: r2) := by
        rw [PERCENT_ENCODED_count, if_neg (by simp [h])]
      have h3 : pyCount '%' (c :: a :: b :: r2) = pyCount '%' (a :: b :: r2) := by
        rw [count_cons, if_neg h]
        omega
      rw [h1, h2, h3, ih]

theorem unreserved_map_toNat : UNRESERVED_CHARACTERS.map Char.toNat =
    [65, 66, 67, 68, 69, 70, 71, 72, 73, 74, 75, 76, 77, 78, 79, 80, 81, 82,
      83, 84, 85, 86, 87, 88, 89, 90, 97, 98, 99, 100, 101, 102, 103, 104,
      105, 106, 107, 108, 109, 110, 111, 112, 113, 114, 115, 116, 117, 118,
      119, 120, 121, 122, 48, 49, 50, 51, 52, 53, 54, 55, 56, 57, 45, 46, 95,
      126] := by
  decide

theorem hex_mem_unreserved {c : Char} (h : isHexDigitPy c = true) :
    c ∈ UNRESERVED_CHARACTERS := by
  have hn : c.toNat ∈ UNRESERVED_CHARACTERS.map Char.toNat := by
    rw [unreserved_map_toNat]
    simp only [isHexDigitPy, Bool.or_eq_true, Bool.and_eq_true,
      decide_eq_true_eq] at h
    simp only [List.mem_cons, List.not_mem_nil, or_false]
    omega
  obtain ⟨d, hd, hdc⟩ := List.mem_map.mp hn
  exact char_eq_of_toNat hdc ▸ hd

theorem pct_not_mem_unreserved : '%' ∉ UNRESERVED_CHARACTERS := by decide

theorem utf8Bytes_lt (c : Char) : ∀ b ∈ utf8Bytes c, b < 256 := by
  intro b hb
  have hc := char_toNat_lt c
  unfold utf8Bytes at hb
  split_ifs at hb <;>
    simp only [List.mem_cons, List.not_mem_nil, or_false] at hb <;> omega

theorem hex_hexDigitUpper {n : Nat} (h : n < 16) :
    isHexDigitPy (hexDigitUpper n) = true := by
  interval_cases n <;> decide

theorem mem_concatMap_pctByte : ∀ (L : List Nat), (∀ b ∈ L, b < 256) →
    ∀ {c : Char}, c ∈ concatMap pctByte L → c = '%' ∨ isHexDigitPy c = true := by
  intro L
  induction L with
  | nil =>
      intro _ c h
      simp [concatMap] at h
  | cons b r ih =>
      intro hlt c h
      simp only [concatMap, List.mem_append] at h
      rcases h with h | h
      · simp only [pctByte, List.mem_cons, List.not_mem_nil, or_false] at h
        rcases h with h | h | h
        · exact Or.inl h
        · refine Or.inr (h ▸ hex_hexDigitUpper ?_)
          have := hlt b (by simp)
          omega
        · exact Or.inr (h ▸ hex_hexDigitUpper (by omega))
      · exact ih (fun x hx => hlt x (by simp [hx])) h

theorem mem_percent_encode {c d : Char} (h : c ∈ percent_encode d) :
    c = '%' ∨ isHexDigitPy c = true :=
  mem_concatMap_pctByte (utf8Bytes d) (utf8Bytes_lt d) h

theorem concatMap_id {f : Char → Str} {s : Str} (h : ∀ c ∈ s, f c = [c]) :
    concatMap f s = s := by
  induction s with
  | nil => rfl
  | cons c r ih =>
      simp only [concatMap]
      rw [h c (by simp), ih (fun x hx => h x (by simp [hx]))]
      rfl

theorem mem_concatMap {f : Char → Str} {s : Str} {c : Char}
    (h : c ∈ concatMap f s) : ∃ d ∈ s, c ∈ f d := by
  induction s with
  | nil => simp [concatMap] at h
  | cons d r ih =>
      simp only [concatMap, List.mem_append] at h
      rcases h with h | h
      · exact ⟨d, by simp, h⟩
      · obtain ⟨e, he, hce⟩ := ih h
        exact ⟨e, by simp [he], hce⟩

theorem pes_cons_ne {c : Char} (hc : ¬ c = '%') (X : Str) :
    percentsEscaped (c :: X) = percentsEscaped X := by
  rcases X with _ | ⟨d, _ | ⟨e, r⟩⟩ <;> simp [percentsEscaped, hc]

theorem pes_triple {a b : Char} (h1 : isHexDigitPy a = true)
    (h2 : isHexDigitPy b = true) (X : Str) :
    percentsEscaped ('%' :: a :: b :: X) = percentsEscaped X := by
  simp [percentsEscaped, h1, h2]

theorem pes_pctByte {b : Nat} (hb : b < 256) (X : Str) :
    percentsEscaped (pctByte b ++ X) = percentsEscaped X := by
  have h1 := hex_hexDigitUpper (n := b / 16) (by omega)
  have h2 := hex_hexDigitUpper (n := b % 16) (by omega)
  show percentsEscaped
      ('%' :: hexDigitUpper (b / 16) :: hexDigitUpper (b % 16) :: X) =
    percentsEscaped X
  exact pes_triple h1 h2 X

theorem pes_concatMap_pctByte : ∀ (L : List Nat), (∀ b ∈ L, b < 256) → ∀ X,
    percentsEscaped (concatMap pctByte L ++ X) = percentsEscaped X := by
  intro L
  induction L with
  | nil =>
      intro _ X
      rfl
  | cons b r ih =>
      intro hlt X
      show percentsEscaped (pctByte b ++ concatMap pctByte r ++ X) = percentsEscaped X
      rw [List.append_assoc, pes_pctByte (hlt b (by simp)),
        ih (fun x hx => hlt x (by simp [hx]))]

theorem pes_percent_encode (c : Char) (X : Str) :
    percentsEscaped (percent_encode c ++ X) = percentsEscaped X :=
  pes_concatMap_pctByte (utf8Bytes c) (utf8Bytes_lt c) X

theorem quote_chars (s safe : Str) :
    ∀ c ∈ quote s safe, c ∈ UNRESERVED_CHARACTERS ++ safe ++ ['%'] := by
  intro c hc
  obtain ⟨d, _, hfd⟩ := mem_concatMap hc
  by_cases hmem : d ∈ quoteNonEscaped s safe
  · rw [if_pos hmem] at hfd
    simp only [List.mem_singleton] at hfd
    subst hfd
    unfold quoteNonEscaped at hmem
    split_ifs at hmem
    · exact hmem
    · simp only [List.append_assoc, List.mem_append] at hmem ⊢
      tauto
  · rw [if_neg hmem] at hfd
    rcases mem_percent_encode hfd with h | h
    · simp [h]
    · simp [List.mem_append, hex_mem_unreserved h]

theorem pes_fc (N : Str) {c : Char} (hc : ¬ c = '%') (X : Str) :
    percentsEscaped ((if c ∈ N then [c] else percent_encode c) ++ X) =
      percentsEscaped X := by
  by_cases hmem : c ∈ N
  · rw [if_pos hmem]
    exact pes_cons_ne hc X
  · rw [if_neg hmem]
    exact pes_percent_encode c X

theorem pes_concatMap_of_pes (N : Str) (hN : '%' ∈ N)
    (hhex : ∀ c, isHexDigitPy c = true → c ∈ N) :
    ∀ s, percentsEscaped s = true →
      percentsEscaped
        (concatMap (fun c => if c ∈ N then [c] else percent_encode c) s) =
        true := by
  intro s
  induction s using percentsEscaped.induct with
  | case1 => intro _; rfl
  | case2 c =>
      intro hs
      have hc : ¬ c = '%' := by simpa [percentsEscaped] using hs
      show percentsEscaped ((if c ∈ N then [c] else percent_encode c) ++ []) = true
      rw [pes_fc N hc]
      rfl
  | case3 c d =>
      intro hs
      simp only [percentsEscaped, Bool.and_eq_true, bne_iff_ne, ne_eq] at hs
      obtain ⟨hc, hd⟩ := hs
      show percentsEscaped ((if c ∈ N then [c] else percent_encode c) ++
        ((if d ∈ N then [d] else percent_encode d) ++ [])) = true
      rw [pes_fc N hc, pes_fc N hd]
      rfl
  | case4 a b r2 ih =>
      intro hs
      simp only [percentsEscaped, eq_self_iff_true, if_true, ite_true,
        Bool.and_eq_true] at hs
      have ha := hs.1.1
      have hb := hs.1.2
      have hr := hs.2
      show percentsEscaped ((if '%' ∈ N then ['%'] else percent_encode '%') ++
        ((if a ∈ N then [a] else percent_encode a) ++
          ((if b ∈ N then [b] else percent_encode b) ++
            concatMap (fun c => if c ∈ N then [c] else percent_encode c) r2))) = true
      rw [if_pos hN, if_pos (hhex a ha), if_pos (hhex b hb)]
      show percentsEscaped ('%' :: a :: b ::
        concatMap (fun c => if c ∈ N then [c] else percent_encode c) r2) = true
      rw [pes_triple ha hb]
      exact ih hr
  | case5 c a b r2 hc ih =>
      intro hs
      rw [pes_cons_ne hc] at hs
      show percentsEscaped ((if c ∈ N then [c] else percent_encode c) ++
        concatMap (fun x => if x ∈ N then [x] else percent_encode x) (a :: b :: r2)) = true
      rw [pes_fc N hc]
      exact ih hs

theorem pes_concatMap_noPct (N : Str) (hN : '%' ∉ N) :
    ∀ s, percentsEscaped
        (concatMap (fun c => if c ∈ N then [c] else percent_encode c) s) =
        true := by
  intro s
  induction s with
  | nil => rfl
  | cons c r ih =>
      show percentsEscaped ((if c ∈ N then [c] else percent_encode c) ++
        concatMap (fun x => if x ∈ N then [x] else percent_encode x) r) = true
      by_cases hc : c = '%'
      · subst hc
        rw [if_neg hN, pes_percent_encode]
        exact ih
      · rw [pes_fc N hc]
        exact ih

theorem quote_pes (s safe : Str) (hp : '%' ∉ safe) :
    percentsEscaped (quote s safe) = true := by
  unfold quote quoteNonEscaped
  by_cases hcond : pyCount '%' s = PERCENT_ENCODED_count s
  · rw [if_pos hcond]
    exact pes_concatMap_of_pes _ (by simp) (fun c h => by
      simp [List.mem_append, hex_mem_unreserved h]) s ((pes_iff_count s).mpr hcond)
  · rw [if_neg hcond]
    refine pes_concatMap_noPct _ ?_ s
    simp only [List.mem_append, not_or]
    exact ⟨pct_not_mem_unreserved, hp⟩

theorem quote_idem (s safe : Str) : quote (quote s safe) safe = quote s safe := by
  by_cases hp : '%' ∈ safe
  · apply concatMap_id
    intro c hc
    have hmem := quote_chars s safe c hc
    have hm2 : c ∈ UNRESERVED_CHARACTERS ++ safe := by
      simp only [List.append_assoc, List.mem_append, List.mem_singleton] at hmem
      rcases hmem with h | h | h
      · simp [h]
      · simp [h]
      · simp [h ▸ hp]
    rw [if_pos ?_]
    unfold quoteNonEscaped
    split_ifs
    · simp only [List.append_assoc, List.mem_append] at hm2 ⊢
      tauto
    · exact hm2
  · have hpes := quote_pes s safe hp
    have hcond := (pes_iff_count _).mp hpes
    apply concatMap_id
    intro c hc
    rw [if_pos ?_]
    unfold quoteNonEscaped
    rw [if_pos hcond]
    exact quote_chars s safe c hc

/-- **C4**: percent-encoding idempotence: if every occurrence of `%` in `s` is
immediately followed by two hex digits and every other character of `s` is in
the unreserved-or-safe set, then `quote s safe = s`; and for every string `s`
and safe set, `quote (quote s safe) safe = quote s safe`. -/
theorem c4_quote_idempotence :
    (∀ s safe : Str, percentsEscaped s = true →
        (∀ c ∈ s, ¬ c = '%' → c ∈ UNRESERVED_CHARACTERS ++ safe) →
        quote s safe = s) ∧
    (∀ s safe : Str, quote (quote s safe) safe = quote s safe) := by
  constructor
  · intro s safe hpes hsafe
    have hcond := (pes_iff_count s).mp hpes
    apply concatMap_id
    intro c hcs
    rw [if_pos ?_]
    unfold quoteNonEscaped
    rw [if_pos hcond]
    by_cases hc : c = '%'
    · simp [hc]
    · have := hsafe c hcs hc
      simp only [List.append_assoc, List.mem_append] at this ⊢
      tauto
  · exact quote_idem

/-- Witness for C4: a concrete already-encoded string is returned unchanged. -/
theorem c4_quote_idempotence_witness :
    quote "a-b%20c".toList [] = "a-b%20c".toList :=
  c4_quote_idempotence.1 "a-b%20c".toList [] (by decide) (by decide)

/-! ## Host encoding (source lines 90-91, 283-326) -/

/-- Python `str.lower()` restricted to ASCII letters.  Every call site in the
source passes ASCII-only strings (the scheme character class, and the
all-ASCII host branch); the IDNA branch is absorbed into the abstract
encoder parameter of `encode_host`. -/
def pyLower (s : Str) : Str :=
  s.map (fun c =>
    if 65 ≤ c.toNat && c.toNat ≤ 90 then Char.ofNat (c.toNat + 32) else c)

/-- ASCII decimal digit, the class `[0-9]`. -/
def isDigitCh (c : Char) : Bool := 48 ≤ c.toNat && c.toNat ≤ 57

/-!
Backtracking matcher for `IPv4_STYLE_HOSTNAME =
re.compile(r"^[0-9]+.[0-9]+.[0-9]+.[0-9]+$")` (source line 90).  The dots in
the source pattern are NOT escaped, so each matches an arbitrary character
other than a newline: the pattern is four digit runs joined by three
wildcard characters, anchored at both ends.
-/
mutual

/-- Expects a nonempty digit run followed by `k` more wildcard-plus-run
groups of the loose IPv4 dispatch pattern. -/
def ipv4StyleRun (k : Nat) (s : Str) : Bool :=
  match s with
  | [] => false
  | c :: r => isDigitCh c && ipv4StyleCont k r

/-- Continues after at least one digit of the current run: either extend the
run or spend the next character as one of the `.`-wildcards. -/
def ipv4StyleCont (k : Nat) (s : Str) : Bool :=
  match s with
  | [] => k == 0
  | c :: r =>
      (isDigitCh c && ipv4StyleCont k r) ||
      (match k with
       | 0 => false
       | k' + 1 => (c != '\n') && ipv4StyleRun k' r)

end

def IPv4_STYLE_HOSTNAME_match (s : Str) : Bool := ipv4StyleRun 3 s

/-- Decimal value of a digit string. -/
def digitsVal (p : Str) : Nat := p.foldl (fun acc c => acc * 10 + (c.toNat - 48)) 0

/-- One dotted-quad octet as accepted by CPython's `ipaddress.IPv4Address`:
one to three ASCII digits, no leading zero, value at most 255. -/
def ipv4OctetOk (p : Str) : Bool :=
  !p.isEmpty && p.length ≤ 3 && p.all isDigitCh &&
    (p.length == 1 || p.headI != '0') && digitsVal p ≤ 255

/-- `ipaddress.IPv4Address(host)` validation on a string (source lines
293-296, modelling the CPython standard library): exactly four dot-separated
octets. -/
def pyIPv4Valid (s : Str) : Bool :=
  let parts := pySplit '.' s
  parts.length == 4 && parts.all ipv4OctetOk

/-- One IPv6 hextet (CPython `_parse_hextet`): one to four hex digits. -/
def hextetOk (p : Str) : Bool :=
  !p.isEmpty && p.length ≤ 4 && p.all isHexDigitPy

/-- If the last `:`-separated part contains a dot, CPython parses it as an
embedded IPv4 address and replaces it by two hextets. -/
def ipv6ReplaceV4 (parts : List Str) : Option (List Str) :=
  match parts.getLast? with
  | none => some parts
  | some l =>
      if l.contains '.' then
        if pyIPv4Valid l then some (parts.dropLast ++ [['0'], ['0']]) else none
      else some parts

/-- First empty element that is not in last position: `(before, after)` with
`after` nonempty; used to locate the `::` marker among the split parts. -/
def firstEmptyInner : List Str → Option (List Str × List Str)
  | [] => none
  | p :: rest =>
      if p.isEmpty && !rest.isEmpty then some ([], rest)
      else (firstEmptyInner rest).map (fun q => (p :: q.1, q.2))

/-- Decompose `parts` as `H ++ [""] ++ T` around the first empty part that
lies strictly inside (index between 1 and `n - 2`). -/
def splitInnerEmpty (parts : List Str) : Option (List Str × List Str) :=
  match parts with
  | p0 :: rest => (firstEmptyInner rest).map (fun q => (p0 :: q.1, q.2))
  | [] => none

/-- The `::`-expansion core of CPython `_ip_int_from_string`, in list form.
Without an inner empty part there must be exactly eight hextets.  With one,
`parts = H ++ [""] ++ T` (`H`, `T` nonempty): a leading empty part is legal
only as `H = [""]` (a leading `::`), a trailing one only as `T = [""]`;
all other parts are hextets; and the `::` must stand for at least one
hextet, so the hextet counts of `H` and `T` sum to at most seven.  A second
empty part inside would sit in `T` and fail its hextet check, matching
CPython's single-`::` rule. -/
def ipv6Core (parts : List Str) : Bool :=
  match splitInnerEmpty parts with
  | none => parts.length == 8 && parts.all hextetOk
  | some (H, T) =>
      (H == [[]] || H.all hextetOk) && (T == [[]] || T.all hextetOk) &&
        decide ((if H == [[]] then 0 else H.length) +
          (if T == [[]] then 0 else T.length) ≤ 7)

/-- `ipaddress.IPv6Address(...)` validation on a string (source lines
308-311), following CPython's `_ip_int_from_string` without zone
identifiers (Python 3.8 semantics). -/
def pyIPv6Valid (s : Str) : Bool :=
  if (pySplit ':' s).length < 3 then false
  else match ipv6ReplaceV4 (pySplit ':' s) with
    | none => false
    | some parts => if parts.length > 9 then false else ipv6Core parts

/-- `IPv6_STYLE_HOSTNAME = re.compile(r"^\[.*\]$")` (source line 91): a
bracketed literal; the `.*` cannot cross a newline. -/
def IPv6_STYLE_HOSTNAME_match (s : Str) : Bool :=
  decide (2 ≤ s.length) && (s.headI == '[') && (s.getLast?.getD ' ' == ']') &&
    (s.drop 1).dropLast.all (· != '\n')

/-- Python `host[1:-1]`. -/
def strip1 (s : Str) : Str := (s.drop 1).dropLast

/-- Typed failures: `InvalidURL` (the library exception), `TypeError` (raised
for an unrecognized keyword, the failure kind the spec calls
`InvalidArgument`), and the uncaught `UnicodeDecodeError` that
`.decode("ascii")` would raise on non-ASCII IDNA output. -/
inductive PyErr where
  | invalidURL (msg : String) : PyErr
  | typeError (msg : String) : PyErr
  | asciiDecodeError : PyErr
deriving DecidableEq, Repr

/-- `encode_host` (source lines 283-326).  The parameter `idnaEncode`
abstracts the third-party call `idna.encode(host.lower())` (source line 324),
returning `none` on `idna.IDNAError`; its `.decode("ascii")` is modelled by
the ASCII check on the output. -/
def encode_host (idnaEncode : Str → Option Str) (host : Str) : Except PyErr Str :=
  if host = [] then .ok []
  else if IPv4_STYLE_HOSTNAME_match host then
    if pyIPv4Valid host then .ok host
    else .error (.invalidURL "Invalid IPv4 address")
  else if IPv6_STYLE_HOSTNAME_match host then
    if pyIPv6Valid (strip1 host) then .ok (strip1 host)
    else .error (.invalidURL "Invalid IPv6 address")
  else if host.all pyIsAscii then
    .ok (quote (pyLower host) SUB_DELIMS)
  else
    match idnaEncode host with
    | none => .error (.invalidURL "Invalid IDNA hostname")
    | some t => if t.all pyIsAscii then .ok t else .error .asciiDecodeError

/-! ## Port normalization and path validation (source lines 329-365) -/

/-- Python whitespace stripped by `int()` (ASCII part). -/
def isPyWs (c : Char) : Bool :=
  c == ' ' || c == '\t' || c == '\n' || c == '\r' || c.toNat == 11 || c.toNat == 12

/-- Strip leading and trailing whitespace. -/
def stripWs (s : Str) : Str :=
  ((s.dropWhile isPyWs).reverse.dropWhile isPyWs).reverse

/-- No two consecutive underscores. -/
def noDoubleUnder : Str → Bool
  | '_' :: '_' :: _ => false
  | _ :: r => noDoubleUnder r
  | [] => true

/-- Digit grammar of Python `int()`: digits with single underscores strictly
between digits. -/
def digitsUnder (s : Str) : Option Nat :=
  if !s.isEmpty && s.all (fun c => isDigitCh c || c == '_') &&
      isDigitCh s.headI && isDigitCh (s.getLast?.getD '_') && noDoubleUnder s then
    some (digitsVal (s.filter (· != '_')))
  else none

/-- Python `int(string)` for the strings that reach `normalize_port`:
optional surrounding whitespace, an optional sign, then ASCII decimal digits
optionally separated by single underscores.  (Python also accepts non-ASCII
digits and whitespace; those forms are not modelled.) -/
def pyInt (s : Str) : Option Int :=
  match stripWs s with
  | '-' :: r => (digitsUnder r).map (fun n => -(n : Int))
  | '+' :: r => (digitsUnder r).map (fun n => (n : Int))
  | r => (digitsUnder r).map (fun n => (n : Int))

/-- The WHATWG-derived default-port table (source lines 350-352). -/
def defaultPort (scheme : Str) : Option Int :=
  if scheme = "ftp".toList then some 21
  else if scheme = "http".toList then some 80
  else if scheme = "https".toList then some 443
  else if scheme = "ws".toList then some 80
  else if scheme = "wss".toList then some 443
  else none

/-- `normalize_port` (source lines 329-355).  The port arrives as `None` or a
string; integer-typed ports are already stringified by the caller coercion at
source lines 166-168. -/
def normalize_port (port : Option Str) (scheme : Str) : Except PyErr (Option Int) :=
  match port with
  | none => .ok none
  | some p =>
      if p = [] then .ok none
      else match pyInt p with
        | none => .error (.invalidURL "Invalid port")
        | some n =>
            if defaultPort scheme = some n then .ok none else .ok (some n)

/-- `validate_absolute_path` (source lines 358-365). -/
def validate_absolute_path (path : Str) : Except PyErr Unit :=
  if path ≠ [] && !(path.headI == '/') then
    .error (.invalidURL "For absolute URLs, path must be empty or begin with /")
  else .ok ()

/-! ## Grammar splitting (source lines 42-85) -/

/-- Longest prefix of characters satisfying `p`, with the remainder: the
deterministic reading of a greedy character-class star whose continuation
always succeeds. -/
def takeRun (p : Char → Bool) : Str → Str × Str
  | [] => ([], [])
  | c :: r =>
      if p c then
        let t := takeRun p r
        (c :: t.1, t.2)
      else ([], c :: r)

/-- The class `[a-zA-Z]`. -/
def isAlphaCh (c : Char) : Bool :=
  (65 ≤ c.toNat && c.toNat ≤ 90) || (97 ≤ c.toNat && c.toNat ≤ 122)

/-- The class `[a-zA-Z0-9+.-]` of scheme characters after the first; the
punctuation is compared by code point (43 `+`, 46 `.`, 45 `-`). -/
def isSchemeTail (c : Char) : Bool :=
  isAlphaCh c || isDigitCh c || c.toNat == 43 || c.toNat == 46 || c.toNat == 45

/-- The optional group `(?:(?P<scheme>[a-zA-Z][a-zA-Z0-9+.-]*):)?` of
`URL_REGEX` (source lines 42-56): the greedy class run must be followed by a
literal colon, otherwise the group does not participate (backtracking cannot
help, since no character of the class is a colon). -/
def splitScheme : Str → Option (Str × Str)
  | [] => none
  | c :: r =>
      if isAlphaCh c then
        match (takeRun isSchemeTail r).2, (takeRun isSchemeTail r).1 with
        | d :: rest, run => if d = ':' then some (c :: run, rest) else none
        | [], _ => none
      else none

/-- The five top-level groups produced by `URL_REGEX`. -/
structure UrlGroups where
  scheme : Option Str
  authority : Option Str
  path : Str
  query : Option Str
  fragment : Option Str
deriving DecidableEq, Repr

/-- `URL_REGEX.match(url)` (source lines 42-56).  The pattern always matches;
each greedy class run is followed by groups that always succeed, so the split
is deterministic.  The final `.*` of the fragment stops at a newline (`re`
dot semantics) and `re.match` does not anchor the end, so anything after a
newline in the fragment would be dropped; URL strings reaching this point
contain no newline. -/
def URL_REGEX_match (url : Str) : UrlGroups :=
  let p1 :=
    match splitScheme url with
    | some (sc, r) => (some sc, r)
    | none => (none, url)
  let p2 :=
    if p1.2.take 2 = ['/', '/'] then
      let t := takeRun (fun c => !(c == '/' || c == '?' || c == '#')) (p1.2.drop 2)
      (some t.1, t.2)
    else (none, p1.2)
  let p3 := takeRun (fun c => !(c == '?' || c == '#')) p2.2
  let p4 :=
    if p3.2.take 1 = ['?'] then
      let t := takeRun (fun c => !(c == '#')) (p3.2.drop 1)
      (some t.1, t.2)
    else (none, p3.2)
  let fragment :=
    if p4.2.take 1 = ['#'] then
      some (takeRun (fun c => !(c == '\n')) (p4.2.drop 1)).1
    else none
  ⟨p1.1, p2.1, p3.1, p4.1, fragment⟩

/-- The three authority sub-groups produced by `AUTHORITY_REGEX`.  The port
group always participates (possibly as the empty string). -/
structure AuthGroups where
  userinfo : Option Str
  host : Str
  port : Str
deriving DecidableEq, Repr

/-- Split at the first occurrence of `sep`: `(before, after)` when present. -/
def splitFirst (sep : Char) : Str → Option (Str × Str)
  | [] => none
  | c :: r =>
      if c = sep then some ([], r)
      else (splitFirst sep r).map (fun p => (c :: p.1, p.2))

/-- Prefix of `s` up to and including the last occurrence of `sep`, with the
remainder; `none` when absent. -/
def splitLastKeep (sep : Char) (s : Str) : Option (Str × Str) :=
  match splitFirst sep s.reverse with
  | none => none
  | some (a, b) => some (b.reverse ++ [sep], a.reverse)

/-- `AUTHORITY_REGEX.match(authority)` (source lines 61-70): userinfo is the
run up to the first `@` (the group is skipped when there is no `@`); the host
is either a bracketed run `\[.*\]` extending to the last `]` or the run up to
the first `:`; then an optional `:` is consumed and the port takes the rest.
The `.*` runs cannot cross a newline; authority strings reaching this point
contain none. -/
def AUTHORITY_REGEX_match (a : Str) : AuthGroups :=
  let p1 :=
    match splitFirst '@' a with
    | some (u, rest) => (some u, rest)
    | none => (none, a)
  let p2 :=
    if p1.2.take 1 = ['['] then
      match splitLastKeep ']' p1.2 with
      | some q => q
      | none => takeRun (fun c => !(c == ':')) p1.2
    else takeRun (fun c => !(c == ':')) p1.2
  let port :=
    if p2.2.take 1 = [':'] then
      (takeRun (fun c => !(c == '\n')) (p2.2.drop 1)).1
    else (takeRun (fun c => !(c == '\n')) p2.2).1
  ⟨p1.1, p2.1, port⟩

/-- `COMPONENT_REGEX[key].fullmatch(value)` (source lines 76-85).  Negated
classes admit any excluded-free string (including newlines); `.` does not
match a newline, so `.*` full-matches exactly the newline-free strings. -/
def COMPONENT_REGEX_ok (key : String) (v : Str) : Bool :=
  if key = "scheme" then
    v.isEmpty || (isAlphaCh v.headI && (v.drop 1).all isSchemeTail)
  else if key = "authority" then v.all (fun c => !(c == '/' || c == '?' || c == '#'))
  else if key = "path" then v.all (fun c => !(c == '?' || c == '#'))
  else if key = "query" then v.all (fun c => !(c == '#'))
  else if key = "fragment" then v.all (fun c => !(c == '\n'))
  else if key = "userinfo" then v.all (fun c => !(c == '@'))
  else if key = "host" then
    (decide (2 ≤ v.length) && (v.headI == '[') && (v.getLast?.getD ' ' == ']') &&
      (strip1 v).all (fun c => !(c == '\n'))) || v.all (fun c => !(c == ':'))
  else if key = "port" then v.all (fun c => !(c == '\n'))
  else false

/-! ## Keyword dictionary (Python `dict` with insertion order) -/

abbrev Kw := List (String × Option Str)

def dictContains (d : Kw) (k : String) : Bool := d.any (fun p => p.1 == k)

def dictFind (d : Kw) (k : String) : Option (Option Str) :=
  match d.find? (fun p => p.1 == k) with
  | some p => some p.2
  | none => none

/-- Python `d[k] = v`: replace in place when the key is present, append
otherwise. -/
def dictSet (d : Kw) (k : String) (v : Option Str) : Kw :=
  if dictContains d k then d.map (fun p => if p.1 == k then (k, v) else p)
  else d ++ [(k, v)]

/-- Removal, as by `d.pop(k)`. -/
def dictRemove (d : Kw) (k : String) : Kw := d.filter (fun p => !(p.1 == k))

/-- `kwargs.get(k, default)` with the parsed group as default (source lines
235-239, 248-250). -/
def merged (d : Kw) (k : String) (dflt : Option Str) : Option Str :=
  match dictFind d k with
  | some v => v
  | none => dflt

/-- `kwargs.get(k, default) or ""`. -/
def mergedOrEmpty (d : Kw) (k : String) (dflt : Option Str) : Str :=
  (merged d k dflt).getD []

/-- Python `s.partition(sep)`: split at the first occurrence, the middle
component recording whether the separator was found. -/
def pyPartition (sep : Char) (s : Str) : Str × Bool × Str :=
  match splitFirst sep s with
  | some (a, b) => (a, true, b)
  | none => (s, false, [])

/-- Source lines 170-173: replace `netloc` with `host` and `port`. -/
def stepNetloc (kw : Kw) : Kw :=
  if dictContains kw "netloc" then
    let netloc := ((dictFind kw "netloc").getD none).getD []
    let d := dictRemove kw "netloc"
    let t := pyPartition ':' netloc
    dictSet (dictSet d "host" (some t.1)) "port" (some t.2.2)
  else kw

/-- Source lines 175-179: replace `username`/`password` with `userinfo`. -/
def stepUserPass (kw : Kw) : Kw :=
  if dictContains kw "username" || dictContains kw "password" then
    let username := quote (((dictFind kw "username").getD none).getD []) ['/']
    let password := quote (((dictFind kw "password").getD none).getD []) ['/']
    let d := dictRemove (dictRemove kw "username") "password"
    dictSet d "userinfo"
      (some (if !password.isEmpty then username ++ ':' :: password else username))
  else kw

/-- Source lines 181-186: replace `full_path` with `path` and `query`. -/
def stepFullPath (kw : Kw) : Kw :=
  if dictContains kw "full_path" then
    let fp := ((dictFind kw "full_path").getD none).getD []
    let d := dictRemove kw "full_path"
    let t := pyPartition '?' fp
    let d2 := dictSet d "path" (some t.1)
    if t.2.1 then dictSet d2 "query" (some t.2.2) else dictSet d2 "query" none
  else kw

/-- Source lines 188-192: auto-bracket a bare IPv6 `host` value. -/
def stepHostBracket (kw : Kw) : Kw :=
  if dictContains kw "host" then
    let host := ((dictFind kw "host").getD none).getD []
    if host.contains ':' &&
        !((host.headI == '[') && (host.getLast?.getD ' ' == ']')) then
      dictSet kw "host" (some ('[' :: host ++ [']']))
    else kw
  else kw

/-- The keyword preprocessing of `urlparse` (source lines 162-192), applied
in source order.  (The integer-port coercion of source lines 166-168 is the
identity here: the embedding passes ports as strings.) -/
def preprocessKwargs (kw : Kw) : Kw :=
  stepHostBracket (stepFullPath (stepUserPass (stepNetloc kw)))

/-- The recognized keyword names of the validation loop (source lines
198-207). -/
def RECOGNIZED_KEYS : List String :=
  ["scheme", "authority", "path", "query", "fragment", "userinfo", "host", "port"]

/-- The validation loop of `urlparse` (source lines 197-223), iterating the
keyword dictionary in insertion order: unrecognized key, over-long value,
non-printable ASCII, component grammar. -/
def validateKwargs : Kw → Except PyErr Unit
  | [] => .ok ()
  | (k, none) :: rest =>
      if !(RECOGNIZED_KEYS.contains k) then
        .error (.typeError "invalid keyword argument for urlparse")
      else validateKwargs rest
  | (k, some s) :: rest =>
      if !(RECOGNIZED_KEYS.contains k) then
        .error (.typeError "invalid keyword argument for urlparse")
      else if s.length > MAX_URL_LENGTH then
        .error (.invalidURL "URL component too long")
      else if s.any asciiNonPrintable then
        .error (.invalidURL "Invalid non-printable ASCII character in URL component")
      else if !COMPONENT_REGEX_ok k s then
        .error (.invalidURL "Invalid URL component")
      else validateKwargs rest

/-! ## ParseResult and urlparse (source lines 94-280) -/

/-- `ParseResult` (source lines 94-101). -/
structure ParseResult where
  scheme : Str
  userinfo : Str
  host : Str
  port : Option Int
  path : Str
  query : Option Str
  fragment : Option Str
deriving DecidableEq, Repr

/-- Decimal digits of a natural number. -/
def natToStr (n : Nat) : Str :=
  if h : n < 10 then [Char.ofNat (48 + n)]
  else natToStr (n / 10) ++ [Char.ofNat (48 + n % 10)]
decreasing_by
  have : 10 ≤ n := Nat.le_of_not_lt h
  exact Nat.div_lt_self (by omega) (by omega)

/-- The decimal string of an integer, as interpolated by `f"{port}"`. -/
def intToStr (n : Int) : Str :=
  if n < 0 then '-' :: natToStr n.natAbs else natToStr n.toNat

/-- The derived `authority` property (source lines 103-111). -/
def ParseResult.authority (r : ParseResult) : Str :=
  (if !r.userinfo.isEmpty then r.userinfo ++ ['@'] else []) ++
  (if r.host.contains ':' then '[' :: r.host ++ [']'] else r.host) ++
  (match r.port with
   | some n => ':' :: intToStr n
   | none => [])

/-- The derived `netloc` property (source lines 113-120). -/
def ParseResult.netloc (r : ParseResult) : Str :=
  (if r.host.contains ':' then '[' :: r.host ++ [']'] else r.host) ++
  (match r.port with
   | some n => ':' :: intToStr n
   | none => [])

/-- `ParseResult.__str__` (source lines 136-146): the canonical string form. -/
def ParseResult.toStr (r : ParseResult) : Str :=
  (if !r.scheme.isEmpty then r.scheme ++ [':'] else []) ++
  (if !r.authority.isEmpty then '/' :: '/' :: r.authority else []) ++
  r.path ++
  (match r.query with
   | some q => '?' :: q
   | none => []) ++
  (match r.fragment with
   | some f => '#' :: f
   | none => [])

/-- The serialized port segment `":{port}"` of the authority property. -/
def portSerial (P : Option Int) : Str :=
  (P.map (fun p => ':' :: intToStr p)).getD []

/-- The port digits alone, as recovered by the authority regex. -/
def portGroup (P : Option Int) : Str := (P.map intToStr).getD []

/-- The serialized query segment `"?{query}"` of `__str__`. -/
def querySerial (Q : Option Str) : Str := (Q.map (fun q => '?' :: q)).getD []

/-- The serialized fragment segment `"#{fragment}"` of `__str__`. -/
def fragSerial (F : Option Str) : Str := (F.map (fun f => '#' :: f)).getD []

/-- Truthiness of the merged raw `userinfo or host or port` (source line
259). -/
def authorityTruthy (userinfo host : Str) (port : Option Str) : Bool :=
  !userinfo.isEmpty || !host.isEmpty ||
    (match port with
     | some p => !p.isEmpty
     | none => false)

/-- The merged component values of `urlparse` after overrides take
precedence over the parsed groups (source lines 225-250). -/
structure MergedComponents where
  scheme : Str
  authority : Str
  path : Str
  query : Option Str
  fragment : Option Str
  userinfo : Str
  host : Str
  port : Option Str
deriving DecidableEq, Repr

/-- Source lines 225-250: split the raw URL and the merged authority, and
merge each group with the keyword overrides. -/
def mergeComponents (kw : Kw) (url : Str) : MergedComponents :=
  let g := URL_REGEX_match url
  let scheme := mergedOrEmpty kw "scheme" g.scheme
  let authority := mergedOrEmpty kw "authority" g.authority
  let path := mergedOrEmpty kw "path" (some g.path)
  let query := merged kw "query" g.query
  let fragment := merged kw "fragment" g.fragment
  let a := AUTHORITY_REGEX_match authority
  let userinfo := mergedOrEmpty kw "userinfo" a.userinfo
  let host := mergedOrEmpty kw "host" (some a.host)
  let port := merged kw "port" (some a.port)
  ⟨scheme, authority, path, query, fragment, userinfo, host, port⟩

/-- Source lines 259-261: conditional absolute-path validation and
dot-segment removal. -/
def pathStep (m : MergedComponents) : Except PyErr Str :=
  if authorityTruthy m.userinfo m.host m.port then
    match validate_absolute_path m.path with
    | .error e => .error e
    | .ok _ => .ok (normalize_path m.path)
  else .ok m.path

/-- Source lines 252-280: normalize and validate each merged component and
assemble the `ParseResult`. -/
def normalizeComponents (idnaEncode : Str → Option Str) (m : MergedComponents) :
    Except PyErr ParseResult :=
  match encode_host idnaEncode m.host with
  | .error e => .error e
  | .ok parsed_host =>
      match normalize_port m.port m.scheme with
      | .error e => .error e
      | .ok parsed_port =>
          match pathStep m with
          | .error e => .error e
          | .ok path =>
              .ok ⟨pyLower m.scheme, quote m.userinfo (SUB_DELIMS ++ [':']),
                parsed_host, parsed_port,
                quote path (SUB_DELIMS ++ [':', '@', '/']),
                m.query.map (fun q => quote q (SUB_DELIMS ++ ['/', '?'])),
                m.fragment.map (fun f => quote f (SUB_DELIMS ++ ['/', '?']))⟩

/-- `urlparse` (source lines 149-280).  `idnaEncode` abstracts the
third-party IDNA encoder, see `encode_host`. -/
def urlparse (idnaEncode : Str → Option Str) (url : Str := [])
    (kwargs : Kw := []) : Except PyErr ParseResult :=
  if url.length > MAX_URL_LENGTH then .error (.invalidURL "URL too long")
  else if url.any asciiNonPrintable then
    .error (.invalidURL "Invalid non-printable ASCII character in URL")
  else
    match validateKwargs (preprocessKwargs kwargs) with
    | .error e => .error e
    | .ok _ =>
        normalizeComponents idnaEncode
          (mergeComponents (preprocessKwargs kwargs) url)

/-- `ParseResult.copy_with` (source lines 122-134): serialize the five
top-level components as a baseline, merge the caller overrides on top, and
re-enter `urlparse` with an empty raw string. -/
def ParseResult.copy_with (idnaEncode : Str → Option Str) (r : ParseResult)
    (kwargs : Kw) : Except PyErr ParseResult :=
  if kwargs.isEmpty then .ok r
  else
    let defaults : Kw :=
      [("scheme", some r.scheme), ("authority", some r.authority),
        ("path", some r.path), ("query", r.query), ("fragment", r.fragment)]
    urlparse idnaEncode [] (kwargs.foldl (fun d p => dictSet d p.1 p.2) defaults)

/-- **C2, counterexample**: the claim says `normalize_path "/.." = "/"`, but the
code returns the empty string: the leading empty marker is retained and the
`".."` is dropped, and `"/".join([""])` is `""`, not `"/"`. -/
theorem c2_counterexample :
    normalize_path "/..".toList = "".toList ∧
    normalize_path "/..".toList ≠ "/".toList := by
  constructor
  · decide
  · decide

/-- **C2, amended**: dot-segment removal per the code: the path
`"/path/./to/somewhere/.."` normalizes to `"/path/to"`, the path `"/.."`
normalizes to `""` (the empty string, not `"/"`); popping on `".."` never
descends below the root: when the retained segment list is empty or holds
only a single empty marker, the `".."` is dropped silently. -/
theorem c2_amended :
    normalize_path "/path/./to/somewhere/..".toList = "/path/to".toList ∧
    normalize_path "/..".toList = [] ∧
    (∀ output : List Str, dotSegmentStep output ['.', '.'] =
      if output ≠ [] ∧ output ≠ [[]] then output.dropLast else output) := by
  refine ⟨by decide, by decide, fun output => ?_⟩
  simp [dotSegmentStep]

instance {ε α : Type} [DecidableEq ε] [DecidableEq α] :
    DecidableEq (Except ε α) := fun x y =>
  match x, y with
  | .ok a, .ok b =>
      if h : a = b then isTrue (by rw [h])
      else isFalse (fun hx => h (by cases hx; rfl))
  | .error a, .error b =>
      if h : a = b then isTrue (by rw [h])
      else isFalse (fun hx => h (by cases hx; rfl))
  | .ok _, .error _ => isFalse (fun hx => Except.noConfusion hx)
  | .error _, .ok _ => isFalse (fun hx => Except.noConfusion hx)

/-- **C5, counterexample**: the claim says every present port is a positive
integer, but `int("-1")` parses and `-1` is stored: parsing
`"http://example.com:-1/"` yields port `-1`. -/
theorem c5_counterexample :
    (urlparse (fun _ => none) "http://example.com:-1/".toList []).map
      ParseResult.port = .ok (some (-1)) := by
  decide

/-- **C5, amended**: the port, when present, is an integer (possibly
non-positive) that is never equal to the default port recorded for the scheme
string passed to `normalize_port` (the scheme as written, before
lower-casing); with a lower-case scheme the three concrete behaviors hold:
`:80` under `http` is elided, `:8080` is kept, `:443` under `https` is
elided. -/
theorem c5_amended :
    (∀ (p : Option Str) (scheme : Str) (n d : Int),
        normalize_port p scheme = .ok (some n) → defaultPort scheme = some d →
        n ≠ d) ∧
    (urlparse (fun _ => none) "http://example.com:80/".toList []).map
      ParseResult.port = .ok none ∧
    (urlparse (fun _ => none) "http://example.com:8080/".toList []).map
      ParseResult.port = .ok (some 8080) ∧
    (urlparse (fun _ => none) "https://example.com:443/".toList []).map
      ParseResult.port = .ok none := by
  refine ⟨?_, by decide, by decide, by decide⟩
  intro p scheme n d hn hd
  cases p with
  | none => simp [normalize_port] at hn
  | some s =>
      by_cases hs : s = []
      · simp [normalize_port, hs] at hn
      · cases hpi : pyInt s with
        | none => simp [normalize_port, hs, hpi] at hn
        | some m =>
            by_cases hdm : defaultPort scheme = some m
            · simp [normalize_port, hs, hpi, hdm] at hn
            · simp [normalize_port, hs, hpi, hdm] at hn
              intro hnd
              apply hdm
              rw [hn, hnd]
              exact hd

/-- Witness for the amended C5: `normalize_port` keeps port 9 for scheme
`http` and 9 differs from the default 80. -/
theorem c5_amended_witness :
    normalize_port (some "9".toList) "http".toList = .ok (some 9) ∧
    defaultPort "http".toList = some 80 ∧ (9 : Int) ≠ 80 :=
  ⟨by decide, by decide,
    c5_amended.1 (some "9".toList) "http".toList 9 80 (by decide) (by decide)⟩

/-- **C6**: query/fragment tri-state: the four example parses produce the
claimed absent / present-empty / present-nonempty states, the canonical
string form reproduces the trailing bare `?` exactly, and in general the
string reconstruction never conflates a present (even empty) query or
fragment with an absent one. -/
theorem c6_query_fragment_tristate :
    urlparse (fun _ => none) "http://example.com".toList [] =
      .ok ⟨"http".toList, [], "example.com".toList, none, [], none, none⟩ ∧
    urlparse (fun _ => none) "http://example.com?".toList [] =
      .ok ⟨"http".toList, [], "example.com".toList, none, [], some [], none⟩ ∧
    urlparse (fun _ => none) "http://example.com#".toList [] =
      .ok ⟨"http".toList, [], "example.com".toList, none, [], none, some []⟩ ∧
    urlparse (fun _ => none) "http://example.com?x=1#y".toList [] =
      .ok ⟨"http".toList, [], "example.com".toList, none, [],
        some "x=1".toList, some "y".toList⟩ ∧
    ParseResult.toStr
        ⟨"http".toList, [], "example.com".toList, none, [], some [], none⟩ =
      "http://example.com?".toList ∧
    ParseResult.toStr
        ⟨"http".toList, [], "example.com".toList, none, [], none, none⟩ =
      "http://example.com".toList ∧
    (∀ (r : ParseResult) (q : Str),
      ParseResult.toStr { r with query := some q } ≠
        ParseResult.toStr { r with query := none }) ∧
    (∀ (r : ParseResult) (f : Str),
      ParseResult.toStr { r with fragment := some f } ≠
        ParseResult.toStr { r with fragment := none }) := by
  refine ⟨by decide, by decide, by decide, by decide, by decide, by decide,
    ?_, ?_⟩
  · intro r q h
    have hl := congrArg List.length h
    simp [ParseResult.toStr, ParseResult.authority, List.length_append] at hl
    omega
  · intro r f h
    have hl := congrArg List.length h
    simp [ParseResult.toStr, ParseResult.authority, List.length_append] at hl

/-- **C8, counterexample**: `"1234567"` is all-ASCII, non-bracketed and not a
strict dotted-quad, yet `encode_host` rejects it with an invalid-IPv4 error
instead of treating it as a registered name: the unescaped dots of the
dispatch pattern make every 7-digit run match it. -/
theorem c8_counterexample :
    "1234567".toList.all pyIsAscii = true ∧
    IPv6_STYLE_HOSTNAME_match "1234567".toList = false ∧
    pyIPv4Valid "1234567".toList = false ∧
    encode_host (fun _ => none) "1234567".toList =
      .error (.invalidURL "Invalid IPv4 address") := by
  refine ⟨by decide, by decide, by decide, by decide⟩

/-- **C8, amended**: every nonempty all-ASCII non-bracketed host that does
not match the loose dispatch pattern `[0-9]+.[0-9]+.[0-9]+.[0-9]+` (with its
unescaped dots) is treated as a registered name: lower-cased and
percent-encoded with the sub-delimiter safe set.  In particular `"12345"`
and the five-group `"1.2.3.4.5"` do not match the loose pattern and fall
through; but loose-matching strings that fail strict IPv4 validation (such
as `"1234567"`) fail with `InvalidURL`. -/
theorem c8_amended :
    (∀ host : Str, host ≠ [] → host.all pyIsAscii = true →
        IPv4_STYLE_HOSTNAME_match host = false →
        IPv6_STYLE_HOSTNAME_match host = false →
        ∀ f, encode_host f host = .ok (quote (pyLower host) SUB_DELIMS)) ∧
    encode_host (fun _ => none) "12345".toList = .ok "12345".toList ∧
    encode_host (fun _ => none) "1.2.3.4.5".toList = .ok "1.2.3.4.5".toList ∧
    IPv4_STYLE_HOSTNAME_match "12345".toList = false ∧
    IPv4_STYLE_HOSTNAME_match "1.2.3.4.5".toList = false := by
  refine ⟨?_, by decide, by decide, by decide, by decide⟩
  intro host h0 h1 h2 h3 f
  simp [encode_host, h0, h1, h2, h3]

/-- Witness for the amended C8 at the concrete host `"ab"`. -/
theorem c8_amended_witness :
    "ab".toList ≠ [] ∧ "ab".toList.all pyIsAscii = true ∧
    IPv4_STYLE_HOSTNAME_match "ab".toList = false ∧
    IPv6_STYLE_HOSTNAME_match "ab".toList = false ∧
    encode_host (fun _ => none) "ab".toList =
      .ok (quote (pyLower "ab".toList) SUB_DELIMS) :=
  ⟨by decide, by decide, by decide, by decide,
    c8_amended.1 "ab".toList (by decide) (by decide) (by decide) (by decide) _⟩

/-! ## C9: unrecognized override keys -/

/-- The full recognized override-name set of the spec: the eight names
checked by the validation loop plus the four aliases consumed by
preprocessing. -/
def EXTENDED_KEYS : List String :=
  RECOGNIZED_KEYS ++ ["netloc", "username", "password", "full_path"]

theorem mem_dictSet_ne {d : Kw} {k k' : String} {v v' : Option Str}
    (h : (k, v) ∈ d) (hne : k ≠ k') : (k, v) ∈ dictSet d k' v' := by
  unfold dictSet
  split_ifs with hc
  · refine List.mem_map.mpr ⟨(k, v), h, ?_⟩
    simp [hne]
  · exact List.mem_append_left _ h

theorem mem_dictRemove_ne {d : Kw} {k k' : String} {v : Option Str}
    (h : (k, v) ∈ d) (hne : k ≠ k') : (k, v) ∈ dictRemove d k' :=
  List.mem_filter.mpr ⟨h, by simp [hne]⟩

theorem stepNetloc_preserves {kw : Kw} {k : String} {v : Option Str}
    (h : (k, v) ∈ kw) (h1 : k ≠ "netloc") (h2 : k ≠ "host") (h3 : k ≠ "port") :
    (k, v) ∈ stepNetloc kw := by
  unfold stepNetloc
  split_ifs
  · exact mem_dictSet_ne (mem_dictSet_ne (mem_dictRemove_ne h h1) h2) h3
  · exact h

theorem stepUserPass_preserves {kw : Kw} {k : String} {v : Option Str}
    (h : (k, v) ∈ kw) (h1 : k ≠ "username") (h2 : k ≠ "password")
    (h3 : k ≠ "userinfo") : (k, v) ∈ stepUserPass kw := by
  unfold stepUserPass
  split_ifs
  · exact mem_dictSet_ne (mem_dictRemove_ne (mem_dictRemove_ne h h1) h2) h3
  · exact h

theorem stepFullPath_preserves {kw : Kw} {k : String} {v : Option Str}
    (h : (k, v) ∈ kw) (h1 : k ≠ "full_path") (h2 : k ≠ "path")
    (h3 : k ≠ "query") : (k, v) ∈ stepFullPath kw := by
  unfold stepFullPath
  by_cases hc : dictContains kw "full_path" = true
  · rw [if_pos hc]
    dsimp only
    split_ifs
    · exact mem_dictSet_ne (mem_dictSet_ne (mem_dictRemove_ne h h1) h2) h3
    · exact mem_dictSet_ne (mem_dictSet_ne (mem_dictRemove_ne h h1) h2) h3
  · rw [if_neg hc]
    exact h

theorem stepHostBracket_preserves {kw : Kw} {k : String} {v : Option Str}
    (h : (k, v) ∈ kw) (h2 : k ≠ "host") : (k, v) ∈ stepHostBracket kw := by
  unfold stepHostBracket
  by_cases hc : dictContains kw "host" = true
  · rw [if_pos hc]
    dsimp only
    split_ifs
    · exact mem_dictSet_ne h h2
    · exact h
  · rw [if_neg hc]
    exact h

theorem preprocess_preserves {kw : Kw} {k : String} {v : Option Str}
    (h : (k, v) ∈ kw) (hk : ¬ k ∈ EXTENDED_KEYS) :
    (k, v) ∈ preprocessKwargs kw := by
  simp only [EXTENDED_KEYS, RECOGNIZED_KEYS, List.mem_append, List.mem_cons,
    List.not_mem_nil, or_false, not_or] at hk
  obtain ⟨⟨hs, ha, hp, hq, hf, hu, hh, hpo⟩, hn, hun, hpw, hfp⟩ := hk
  exact stepHostBracket_preserves
    (stepFullPath_preserves
      (stepUserPass_preserves (stepNetloc_preserves h hn hh hpo) hun hpw hu)
      hfp hp hq) hh

theorem validate_ok_keys : ∀ d : Kw, validateKwargs d = .ok () →
    ∀ p ∈ d, p.1 ∈ RECOGNIZED_KEYS := by
  intro d
  induction d with
  | nil =>
      intro _ p hp
      simp at hp
  | cons e rest ih =>
      intro h p hp
      obtain ⟨k, v⟩ := e
      by_cases hk : k ∈ RECOGNIZED_KEYS
      · have hrest : validateKwargs rest = .ok () := by
          cases v with
          | none =>
              rw [validateKwargs, if_neg (by simp [hk])] at h
              exact h
          | some s =>
              rw [validateKwargs, if_neg (by simp [hk])] at h
              split_ifs at h
              exact h
        rcases List.mem_cons.mp hp with hp | hp
        · subst hp
          exact hk
        · exact ih hrest p hp
      · cases v with
        | none =>
            rw [validateKwargs, if_pos (by simp [hk])] at h
            exact absurd h (by simp)
        | some s =>
            rw [validateKwargs, if_pos (by simp [hk])] at h
            exact absurd h (by simp)

/-- **C9, counterexample**: with a valid-keyed override whose value is
invalid appearing before the bogus key, `urlparse` fails with `InvalidURL`,
not with the `InvalidArgument` kind (`TypeError`), although an unrecognized
key is present. -/
theorem c9_counterexample :
    urlparse (fun _ => none) []
        [("path", some "?".toList), ("bogus", some "x".toList)] =
      .error (.invalidURL "Invalid URL component") ∧
    (∀ m, urlparse (fun _ => none) []
        [("path", some "?".toList), ("bogus", some "x".toList)] ≠
      .error (.typeError m)) := by
  refine ⟨by decide, ?_⟩
  intro m h
  have h1 : urlparse (fun _ => none) []
      [("path", some "?".toList), ("bogus", some "x".toList)] =
      .error (.invalidURL "Invalid URL component") := by decide
  rw [h1] at h
  simp at h

/-- **C9, amended**: whenever any override key lies outside the recognized
set {scheme, authority, path, query, fragment, userinfo, host, port, netloc,
username, password, full_path}, `urlparse` never returns a `ParseResult`;
the failure kind is `InvalidArgument` (`TypeError`) when the preliminary
checks and the preceding recognized overrides pass, as in the single-key
example below, but an earlier invalid component can surface as `InvalidURL`
first. -/
theorem c9_amended :
    (∀ (idnaEncode : Str → Option Str) (url : Str) (kwargs : Kw)
        (k : String) (v : Option Str), (k, v) ∈ kwargs →
        ¬ k ∈ EXTENDED_KEYS →
        ∀ R, urlparse idnaEncode url kwargs ≠ .ok R) ∧
    urlparse (fun _ => none) [] [("bogus", some "x".toList)] =
      .error (.typeError "invalid keyword argument for urlparse") := by
  refine ⟨?_, by decide⟩
  intro idnaEncode url kwargs k v hmem hk R h
  unfold urlparse at h
  split_ifs at h
  cases hv : validateKwargs (preprocessKwargs kwargs) with
  | error e =>
      rw [hv] at h
      exact Except.noConfusion h
  | ok u =>
      cases u
      have hkr : k ∈ RECOGNIZED_KEYS :=
        validate_ok_keys _ hv (k, v) (preprocess_preserves hmem hk)
      exact hk (List.mem_append_left _ hkr)

/-- Witness for the amended C9: the bogus single-key call is refused. -/
theorem c9_amended_witness :
    (("bogus", some "x".toList) ∈
      ([("bogus", some "x".toList)] : Kw)) ∧
    ¬ "bogus" ∈ EXTENDED_KEYS ∧
    urlparse (fun _ => none) [] [("bogus", some "x".toList)] ≠
      .ok ⟨[], [], [], none, [], none, none⟩ :=
  ⟨by simp, by decide,
    c9_amended.1 (fun _ => none) [] [("bogus", some "x".toList)] "bogus"
      (some "x".toList) (by simp) (by decide) ⟨[], [], [], none, [], none, none⟩⟩

/-! ## Success inversion for urlparse -/

theorem urlparse_ok_checks {idna : Str → Option Str} {url : Str} {kwargs : Kw}
    {R : ParseResult} (h : urlparse idna url kwargs = .ok R) :
    url.length ≤ MAX_URL_LENGTH ∧ url.any asciiNonPrintable = false ∧
    validateKwargs (preprocessKwargs kwargs) = .ok () ∧
    normalizeComponents idna (mergeComponents (preprocessKwargs kwargs) url) =
      .ok R := by
  unfold urlparse at h
  split_ifs at h with h1 h2
  cases hv : validateKwargs (preprocessKwargs kwargs) with
  | error e =>
      rw [hv] at h
      exact Except.noConfusion h
  | ok u =>
      cases u
      rw [hv] at h
      exact ⟨by omega, by simpa using h2, rfl, h⟩

theorem normalizeComponents_ok_inv {idna : Str → Option Str}
    {m : MergedComponents} {R : ParseResult}
    (h : normalizeComponents idna m = .ok R) :
    ∃ ph pp pa, encode_host idna m.host = .ok ph ∧
      normalize_port m.port m.scheme = .ok pp ∧ pathStep m = .ok pa ∧
      R = ⟨pyLower m.scheme, quote m.userinfo (SUB_DELIMS ++ [':']), ph, pp,
        quote pa (SUB_DELIMS ++ [':', '@', '/']),
        m.query.map (fun q => quote q (SUB_DELIMS ++ ['/', '?'])),
        m.fragment.map (fun f => quote f (SUB_DELIMS ++ ['/', '?']))⟩ := by
  unfold normalizeComponents at h
  cases he : encode_host idna m.host with
  | error e =>
      rw [he] at h
      exact Except.noConfusion h
  | ok ph =>
      rw [he] at h
      cases hp : normalize_port m.port m.scheme with
      | error e =>
          rw [hp] at h
          exact Except.noConfusion h
      | ok pp =>
          rw [hp] at h
          cases hpa : pathStep m with
          | error e =>
              rw [hpa] at h
              exact Except.noConfusion h
          | ok pa =>
              rw [hpa] at h
              exact ⟨ph, pp, pa, rfl, rfl, rfl, (Except.ok.inj h).symm⟩

theorem pathStep_ok_truthy {m : MergedComponents} {pa : Str}
    (h : pathStep m = .ok pa)
    (ht : authorityTruthy m.userinfo m.host m.port = true) :
    (m.path = [] ∨ m.path.headI = '/') ∧ pa = normalize_path m.path := by
  unfold pathStep at h
  rw [if_pos ht] at h
  cases hv : validate_absolute_path m.path with
  | error e =>
      rw [hv] at h
      exact Except.noConfusion h
  | ok u =>
      cases u
      rw [hv] at h
      refine ⟨?_, (Except.ok.inj h).symm⟩
      unfold validate_absolute_path at hv
      by_cases hc : (m.path ≠ [] && !(m.path.headI == '/')) = true
      · rw [if_pos hc] at hv
        exact Except.noConfusion hv
      · simp only [Bool.and_eq_true, decide_eq_true_eq, Bool.not_eq_true,
          not_and, ne_eq] at hc
        by_cases hn : m.path = []
        · exact Or.inl hn
        · right
          have := hc (by simpa using hn)
          simpa using this

theorem percent_encode_ne_nil (c : Char) : percent_encode c ≠ [] := by
  unfold percent_encode utf8Bytes
  split_ifs <;> simp [concatMap, pctByte]

theorem quote_ne_nil {s : Str} (h : s ≠ []) (safe : Str) :
    quote s safe ≠ [] := by
  cases s with
  | nil => exact absurd rfl h
  | cons c r =>
      show ((if c ∈ quoteNonEscaped (c :: r) safe then [c] else percent_encode c) ++ _) ≠ []
      by_cases hm : c ∈ quoteNonEscaped (c :: r) safe
      · rw [if_pos hm]
        simp
      · rw [if_neg hm]
        simp [percent_encode_ne_nil c]

theorem encode_host_ok_ne {f : Str → Option Str} {h t : Str}
    (he : encode_host f h = .ok t) (ht : t ≠ []) : h ≠ [] := by
  intro hh
  subst hh
  have : t = [] := (Except.ok.inj he).symm
  exact ht this

theorem normalize_port_some_inv {port : Option Str} {scheme : Str} {n : Int}
    (h : normalize_port port scheme = .ok (some n)) :
    ∃ p, port = some p ∧ p ≠ [] := by
  cases port with
  | none => simp [normalize_port] at h
  | some p =>
      by_cases hp : p = []
      · simp [normalize_port, hp] at h
      · exact ⟨p, rfl, hp⟩

theorem dotSegmentStep_head {acc : List Str} (h1 : acc ≠ [])
    (h2 : acc.headI = []) (c : Str) :
    dotSegmentStep acc c ≠ [] ∧ (dotSegmentStep acc c).headI = [] := by
  unfold dotSegmentStep
  split_ifs with hc1 hc2 hc3
  · exact ⟨h1, h2⟩
  · obtain ⟨x, rest, rfl⟩ := List.exists_cons_of_ne_nil h1
    have hx : x = [] := by simpa using h2
    subst hx
    cases rest with
    | nil => exact absurd rfl hc3.2
    | cons y r =>
        constructor
        · simp
        · simp [List.dropLast]
  · exact ⟨h1, h2⟩
  · obtain ⟨x, rest, rfl⟩ := List.exists_cons_of_ne_nil h1
    constructor
    · simp
    · simpa using h2

theorem dotfold_head : ∀ (t : List Str) (acc : List Str), acc ≠ [] →
    acc.headI = [] →
    List.foldl dotSegmentStep acc t ≠ [] ∧
      (List.foldl dotSegmentStep acc t).headI = [] := by
  intro t
  induction t with
  | nil =>
      intro acc h1 h2
      exact ⟨h1, h2⟩
  | cons c rest ih =>
      intro acc h1 h2
      have hst := dotSegmentStep_head h1 h2 c
      simpa using ih (dotSegmentStep acc c) hst.1 hst.2

theorem normalize_path_abs {p : Str} (h : p = [] ∨ p.headI = '/') :
    normalize_path p = [] ∨
      (normalize_path p ≠ [] ∧ (normalize_path p).headI = '/') := by
  by_cases hp : p = []
  · left
    subst hp
    rfl
  · have hh : p.headI = '/' := h.resolve_left hp
    obtain ⟨c, r, rfl⟩ := List.exists_cons_of_ne_nil hp
    have hc : c = '/' := by simpa using hh
    subst hc
    unfold normalize_path
    have hsplit : pySplit '/' ('/' :: r) = [] :: pySplit '/' r := by
      simp [pySplit]
    rw [hsplit]
    have hstep : List.foldl dotSegmentStep [] ([] :: pySplit '/' r) =
        List.foldl dotSegmentStep [[]] (pySplit '/' r) := by
      simp [dotSegmentStep]
    rw [hstep]
    have hf := dotfold_head (pySplit '/' r) [[]] (by simp) (by simp)
    obtain ⟨x, t2, hx⟩ := List.exists_cons_of_ne_nil hf.1
    have hxe : x = [] := by
      have := hf.2
      rw [hx] at this
      simpa using this
    rw [hx, hxe]
    cases t2 with
    | nil => left; rfl
    | cons y t3 =>
        right
        constructor
        · simp [pyJoin]
        · simp [pyJoin]

theorem quote_path_head {p : Str} (hne : p ≠ []) (hh : p.headI = '/') :
    (quote p (SUB_DELIMS ++ [':', '@', '/'])).headI = '/' := by
  obtain ⟨c, r, rfl⟩ := List.exists_cons_of_ne_nil hne
  have hc : c = '/' := by simpa using hh
  subst hc
  show ((if '/' ∈ quoteNonEscaped ('/' :: r) (SUB_DELIMS ++ [':', '@', '/'])
    then ['/'] else percent_encode '/') ++ _).headI = '/'
  have hm : '/' ∈ quoteNonEscaped ('/' :: r) (SUB_DELIMS ++ [':', '@', '/']) := by
    unfold quoteNonEscaped
    split_ifs <;> decide
  rw [if_pos hm]
  rfl

/-- **C7**: absolute-path rule: the override pair host=`"x"`, path=`"y"`
fails with `InvalidURL`; and every constructed `ParseResult` whose userinfo,
host, or port is set has a path that is empty or begins with `/`. -/
theorem c7_absolute_path :
    urlparse (fun _ => none) []
        [("host", some "x".toList), ("path", some "y".toList)] =
      .error (.invalidURL "For absolute URLs, path must be empty or begin with /") ∧
    (∀ (idnaEncode : Str → Option Str) (url : Str) (kwargs : Kw)
        (R : ParseResult),
      urlparse idnaEncode url kwargs = .ok R →
      (R.userinfo ≠ [] ∨ R.host ≠ [] ∨ R.port ≠ none) →
      (R.path = [] ∨ R.path.headI = '/')) := by
  refine ⟨by decide, ?_⟩
  intro idna url kwargs R h hdisj
  have hnorm := (urlparse_ok_checks h).2.2.2
  obtain ⟨ph, pp, pa, he, hp, hpa, hR⟩ := normalizeComponents_ok_inv hnorm
  have ht : authorityTruthy (mergeComponents (preprocessKwargs kwargs) url).userinfo
      (mergeComponents (preprocessKwargs kwargs) url).host
      (mergeComponents (preprocessKwargs kwargs) url).port = true := by
    rcases hdisj with hd | hd | hd
    · have hmu : (mergeComponents (preprocessKwargs kwargs) url).userinfo ≠ [] := by
        intro hmu
        apply hd
        rw [hR]
        show quote (mergeComponents (preprocessKwargs kwargs) url).userinfo
          (SUB_DELIMS ++ [':']) = []
        rw [hmu]
        rfl
      unfold authorityTruthy
      have : (mergeComponents (preprocessKwargs kwargs) url).userinfo.isEmpty =
          false := by
        simpa [List.isEmpty_iff] using hmu
      simp [this]
    · have hmh : (mergeComponents (preprocessKwargs kwargs) url).host ≠ [] := by
        refine encode_host_ok_ne he ?_
        intro hph
        apply hd
        rw [hR]
        exact hph
      unfold authorityTruthy
      have : (mergeComponents (preprocessKwargs kwargs) url).host.isEmpty =
          false := by
        simpa [List.isEmpty_iff] using hmh
      simp [this]
    · have hpp : pp ≠ none := by
        intro hppn
        apply hd
        rw [hR]
        exact hppn
      obtain ⟨n, hn⟩ := Option.ne_none_iff_exists.mp hpp
      obtain ⟨p, hmp, hpne⟩ := normalize_port_some_inv (hn ▸ hp)
      unfold authorityTruthy
      rw [hmp]
      have : p.isEmpty = false := by simpa [List.isEmpty_iff] using hpne
      simp [this]
  obtain ⟨habs, hpa2⟩ := pathStep_ok_truthy hpa ht
  rcases normalize_path_abs habs with h2 | ⟨h2a, h2b⟩
  · left
    rw [hR]
    show quote pa (SUB_DELIMS ++ [':', '@', '/']) = []
    rw [hpa2, h2]
    rfl
  · right
    rw [hR]
    show (quote pa (SUB_DELIMS ++ [':', '@', '/'])).headI = '/'
    rw [hpa2]
    exact quote_path_head h2a h2b

/-- Witness for C7 at a concrete parse with a host set. -/
theorem c7_absolute_path_witness :
    urlparse (fun _ => none) "http://h/a".toList [] =
      .ok ⟨"http".toList, [], ['h'], none, ['/', 'a'], none, none⟩ ∧
    (⟨"http".toList, [], ['h'], none, ['/', 'a'], none, none⟩ :
      ParseResult).host ≠ [] ∧
    ((⟨"http".toList, [], ['h'], none, ['/', 'a'], none, none⟩ :
      ParseResult).path = [] ∨
     (⟨"http".toList, [], ['h'], none, ['/', 'a'], none, none⟩ :
      ParseResult).path.headI = '/') :=
  ⟨by decide, by decide,
    c7_absolute_path.2 (fun _ => none) "http://h/a".toList []
      ⟨"http".toList, [], ['h'], none, ['/', 'a'], none, none⟩ (by decide)
      (Or.inr (Or.inl (by decide)))⟩

/-! ## C3: character-set lemmas -/

theorem pySplit_ne_nil (sep : Char) : ∀ s : Str, pySplit sep s ≠ [] := by
  intro s
  cases s with
  | nil => simp [pySplit]
  | cons c r =>
      unfold pySplit
      split_ifs <;> simp

theorem pyJoin_pySplit (sep : Char) : ∀ s : Str, pyJoin sep (pySplit sep s) = s := by
  intro s
  induction s with
  | nil => rfl
  | cons c r ih =>
      obtain ⟨x, xs, hx⟩ := List.exists_cons_of_ne_nil (pySplit_ne_nil sep r)
      by_cases hc : c = sep
      · have h1 : pySplit sep (c :: r) = [] :: pySplit sep r := by
          simp [pySplit, hc]
        rw [h1, hx]
        show [] ++ sep :: pyJoin sep (x :: xs) = c :: r
        simp only [List.nil_append]
        rw [← hx, ih, hc]
      · have h1 : pySplit sep (c :: r) =
            (c :: (pySplit sep r).headI) :: (pySplit sep r).tail := by
          simp [pySplit, hc]
        rw [h1, hx]
        have h2 : pyJoin sep (pySplit sep r) = r := ih
        rw [hx] at h2
        cases xs with
        | nil =>
            show c :: x = c :: r
            rw [show pyJoin sep [x] = x from rfl] at h2
            rw [h2]
        | cons y ys =>
            show (c :: x) ++ sep :: pyJoin sep (y :: ys) = c :: r
            rw [show pyJoin sep (x :: y :: ys) =
              x ++ sep :: pyJoin sep (y :: ys) from rfl] at h2
            simp only [List.cons_append]
            rw [h2]

theorem mem_pyJoin {sep : Char} {c : Char} :
    ∀ {parts : List Str}, c ∈ pyJoin sep parts → c = sep ∨ ∃ p ∈ parts, c ∈ p := by
  intro parts
  induction parts with
  | nil =>
      intro h
      simp [pyJoin] at h
  | cons x xs ih =>
      intro h
      cases xs with
      | nil => exact Or.inr ⟨x, by simp, by simpa [pyJoin] using h⟩
      | cons y ys =>
          rw [show pyJoin sep (x :: y :: ys) =
            x ++ sep :: pyJoin sep (y :: ys) from rfl] at h
          rcases List.mem_append.mp h with h | h
          · exact Or.inr ⟨x, by simp, h⟩
          · rcases List.mem_cons.mp h with h | h
            · exact Or.inl h
            · rcases ih h with h | ⟨p, hp, hcp⟩
              · exact Or.inl h
              · exact Or.inr ⟨p, by simp [hp], hcp⟩

theorem ipv4_chars {s : Str} (h : pyIPv4Valid s = true) :
    ∀ c ∈ s, isDigitCh c = true ∨ c = '.' := by
  intro c hc
  rw [← pyJoin_pySplit '.' s] at hc
  rcases mem_pyJoin hc with rfl | ⟨p, hp, hcp⟩
  · exact Or.inr rfl
  · left
    unfold pyIPv4Valid at h
    simp only [Bool.and_eq_true, List.all_eq_true] at h
    have hoct := h.2 p hp
    unfold ipv4OctetOk at hoct
    simp only [Bool.and_eq_true, List.all_eq_true] at hoct
    exact hoct.1.1.2 c hcp

theorem firstEmptyInner_eq : ∀ {l a b : List Str},
    firstEmptyInner l = some (a, b) → l = a ++ [] :: b := by
  intro l
  induction l with
  | nil =>
      intro a b h
      simp [firstEmptyInner] at h
  | cons p rest ih =>
      intro a b h
      unfold firstEmptyInner at h
      split_ifs at h with hc
      · simp only [Bool.and_eq_true] at hc
        simp only [Option.some.injEq, Prod.mk.injEq] at h
        obtain ⟨ha, hb⟩ := h
        subst ha
        subst hb
        have hp : p = [] := by
          simpa [List.isEmpty_iff] using hc.1
        simp [hp]
      · cases hf : firstEmptyInner rest with
        | none =>
            rw [hf] at h
            simp at h
        | some q =>
            rw [hf] at h
            simp only [Option.map_some', Option.some.injEq] at h
            obtain ⟨a2, b2⟩ := q
            simp only [Prod.mk.injEq] at h
            obtain ⟨h1, h2⟩ := h
            have := ih hf
            rw [this, ← h1, ← h2]
            rfl

theorem splitInnerEmpty_eq {parts H T : List Str}
    (h : splitInnerEmpty parts = some (H, T)) : parts = H ++ [] :: T := by
  cases parts with
  | nil => simp [splitInnerEmpty] at h
  | cons p0 rest =>
      simp only [splitInnerEmpty] at h
      cases hf : firstEmptyInner rest with
      | none =>
          rw [hf] at h
          simp at h
      | some q =>
          rw [hf] at h
          simp only [Option.map_some', Option.some.injEq] at h
          obtain ⟨a2, b2⟩ := q
          simp only [Prod.mk.injEq] at h
          obtain ⟨h1, h2⟩ := h
          have := firstEmptyInner_eq hf
          rw [this, ← h1, ← h2]
          rfl

theorem ipv6Core_chars {parts : List Str} (h : ipv6Core parts = true) :
    ∀ p ∈ parts, ∀ c ∈ p, isHexDigitPy c = true := by
  unfold ipv6Core at h
  cases hs : splitInnerEmpty parts with
  | none =>
      rw [hs] at h
      simp only [Bool.and_eq_true, List.all_eq_true] at h
      intro p hp c hc
      have := h.2 p hp
      unfold hextetOk at this
      simp only [Bool.and_eq_true, List.all_eq_true] at this
      exact this.2 c hc
  | some q =>
      obtain ⟨H, T⟩ := q
      rw [hs] at h
      have hdec := splitInnerEmpty_eq hs
      simp only [Bool.and_eq_true, Bool.or_eq_true, beq_iff_eq,
        List.all_eq_true] at h
      intro p hp c hc
      rw [hdec] at hp
      have hhex : ∀ (L : List Str), (L = [[]] ∨ ∀ x ∈ L, hextetOk x = true) →
          p ∈ L → isHexDigitPy c = true := by
        intro L hL hpL
        rcases hL with rfl | hL
        · have : p = [] := by simpa using hpL
          subst this
          simp at hc
        · have := hL p hpL
          unfold hextetOk at this
          simp only [Bool.and_eq_true, List.all_eq_true] at this
          exact this.2 c hc
      rcases List.mem_append.mp hp with hp | hp
      · exact hhex H h.1.1 hp
      · rcases List.mem_cons.mp hp with hp | hp
        · subst hp
          simp at hc
        · exact hhex T h.1.2 hp

theorem mem_dropLast_or_last {l : List Str} {x p : Str}
    (hl : l.getLast? = some x) (hp : p ∈ l) : p ∈ l.dropLast ∨ p = x := by
  have hne : l ≠ [] := by
    intro h
    subst h
    simp at hl
  have hx : l.getLast hne = x := by
    have := List.getLast?_eq_getLast l hne
    rw [this] at hl
    exact Option.some.inj hl
  have hdec := List.dropLast_append_getLast hne
  rw [← hdec] at hp
  rcases List.mem_append.mp hp with hp | hp
  · exact Or.inl hp
  · right
    rw [← hx]
    simpa using hp

theorem isHex_of_digit {c : Char} (h : isDigitCh c = true) :
    isHexDigitPy c = true := by
  simp only [isDigitCh, Bool.and_eq_true, decide_eq_true_eq] at h
  simp only [isHexDigitPy, Bool.or_eq_true, Bool.and_eq_true, decide_eq_true_eq]
  omega

theorem ipv6_chars {s : Str} (h : pyIPv6Valid s = true) :
    ∀ c ∈ s, isHexDigitPy c = true ∨ c = ':' ∨ c = '.' := by
  unfold pyIPv6Valid at h
  split_ifs at h with h3
  cases hrep : ipv6ReplaceV4 (pySplit ':' s) with
  | none =>
      rw [hrep] at h
      simp at h
  | some parts =>
      rw [hrep] at h
      dsimp only at h
      split_ifs at h with h9
      intro c hc
      rw [← pyJoin_pySplit ':' s] at hc
      rcases mem_pyJoin hc with rfl | ⟨p, hp, hcp⟩
      · exact Or.inr (Or.inl rfl)
      · unfold ipv6ReplaceV4 at hrep
        cases hl : (pySplit ':' s).getLast? with
        | none =>
            rw [hl] at hrep
            have : parts = pySplit ':' s := by
              simpa using hrep.symm
            subst this
            exact Or.inl (ipv6Core_chars h p hp c hcp)
        | some l =>
            rw [hl] at hrep
            dsimp only at hrep
            by_cases hdot : l.contains '.' = true
            · rw [if_pos hdot] at hrep
              split_ifs at hrep with hv4
              have hparts : parts = (pySplit ':' s).dropLast ++ [['0'], ['0']] := by
                simpa using hrep.symm
              rcases mem_dropLast_or_last hl hp with hp2 | hp2
              · have : p ∈ parts := by
                  rw [hparts]
                  exact List.mem_append_left _ hp2
                exact Or.inl (ipv6Core_chars h p this c hcp)
              · subst hp2
                rcases ipv4_chars hv4 c hcp with hd | hd
                · exact Or.inl (isHex_of_digit hd)
                · exact Or.inr (Or.inr hd)
            · rw [if_neg hdot] at hrep
              have : parts = pySplit ':' s := by
                simpa using hrep.symm
              subst this
              exact Or.inl (ipv6Core_chars h p hp c hcp)

theorem unreserved_printable : ∀ c ∈ UNRESERVED_CHARACTERS, printableAscii c = true := by
  decide

theorem printable_of_hex {c : Char} (h : isHexDigitPy c = true) :
    printableAscii c = true := by
  simp only [isHexDigitPy, Bool.or_eq_true, Bool.and_eq_true,
    decide_eq_true_eq] at h
  simp only [printableAscii, Bool.and_eq_true, decide_eq_true_eq]
  omega

theorem printable_of_digit {c : Char} (h : isDigitCh c = true) :
    printableAscii c = true :=
  printable_of_hex (isHex_of_digit h)

theorem quote_all_printable {s safe : Str}
    (hsafe : ∀ c ∈ safe, printableAscii c = true) :
    ∀ c ∈ quote s safe, printableAscii c = true := by
  intro c hc
  have hmem := quote_chars s safe c hc
  simp only [List.append_assoc, List.mem_append, List.mem_singleton] at hmem
  rcases hmem with hmem | hmem | hmem
  · exact unreserved_printable c hmem
  · exact hsafe c hmem
  · subst hmem
    decide

theorem encode_host_ok_printable {f : Str → Option Str} {h t : Str}
    (hf : ∀ s u, f s = some u → u.all printableAscii = true)
    (he : encode_host f h = .ok t) : t.all printableAscii = true := by
  unfold encode_host at he
  split_ifs at he with h0 h1 h2 h3 h4 h5
  · rw [← Except.ok.inj he]
    rfl
  · rw [← Except.ok.inj he]
    rw [List.all_eq_true]
    intro c hc
    rcases ipv4_chars h2 c hc with hd | hd
    · exact printable_of_digit hd
    · subst hd
      decide
  · rw [← Except.ok.inj he]
    rw [List.all_eq_true]
    intro c hc
    rcases ipv6_chars h4 c hc with hd | hd | hd
    · exact printable_of_hex hd
    · subst hd
      decide
    · subst hd
      decide
  · rw [← Except.ok.inj he]
    rw [List.all_eq_true]
    exact quote_all_printable (by decide)
  · cases hi : f h with
    | none =>
        rw [hi] at he
        exact Except.noConfusion he
    | some u =>
        rw [hi] at he
        dsimp only at he
        split_ifs at he with ha
        rw [← Except.ok.inj he]
        exact hf h u hi

theorem dictFind_mem {d : Kw} {k : String} {v : Option Str}
    (h : dictFind d k = some v) : (k, v) ∈ d := by
  unfold dictFind at h
  cases hf : d.find? (fun p => p.1 == k) with
  | none =>
      rw [hf] at h
      exact Option.noConfusion h
  | some pr =>
      rw [hf] at h
      have hmem := List.mem_of_find?_eq_some hf
      have hpred := List.find?_some hf
      simp only [beq_iff_eq] at hpred
      have : pr = (k, v) := by
        obtain ⟨k2, v2⟩ := pr
        simp only at hpred
        simp only [Option.some.injEq] at h
        rw [hpred, h]
      rw [← this]
      exact hmem

theorem validate_ok_values : ∀ d : Kw, validateKwargs d = .ok () →
    ∀ k s, (k, some s) ∈ d →
      s.length ≤ MAX_URL_LENGTH ∧ s.any asciiNonPrintable = false ∧
        COMPONENT_REGEX_ok k s = true := by
  intro d
  induction d with
  | nil =>
      intro _ k s hm
      simp at hm
  | cons e rest ih =>
      intro h k s hm
      obtain ⟨k0, v0⟩ := e
      by_cases hk : k0 ∈ RECOGNIZED_KEYS
      · cases v0 with
        | none =>
            rw [validateKwargs, if_neg (by simp [hk])] at h
            rcases List.mem_cons.mp hm with hm | hm
            · exact absurd hm (by simp)
            · exact ih h k s hm
        | some s0 =>
            rw [validateKwargs, if_neg (by simp [hk])] at h
            split_ifs at h with hlen hnp hre
            rcases List.mem_cons.mp hm with hm | hm
            · have hk0 : k0 = k ∧ s0 = s := by
                simpa using hm.symm
              obtain ⟨rfl, rfl⟩ := hk0
              refine ⟨by omega, ?_, by simpa using hre⟩
              simpa using hnp
            · exact ih h k s hm
      · cases v0 with
        | none =>
            rw [validateKwargs, if_pos (by simp [hk])] at h
            exact Except.noConfusion h
        | some s0 =>
            rw [validateKwargs, if_pos (by simp [hk])] at h
            exact Except.noConfusion h

theorem mergedOrEmpty_cases (kw : Kw) (k : String) (dflt : Option Str) :
    mergedOrEmpty kw k dflt = [] ∨
    (∃ v, dictFind kw k = some (some v) ∧ mergedOrEmpty kw k dflt = v) ∨
    (dictFind kw k = none ∧ ∃ v, dflt = some v ∧ mergedOrEmpty kw k dflt = v) := by
  unfold mergedOrEmpty merged
  cases dictFind kw k with
  | none =>
      cases dflt with
      | none => exact Or.inl rfl
      | some v => exact Or.inr (Or.inr ⟨rfl, v, rfl, rfl⟩)
  | some ov =>
      cases ov with
      | none => exact Or.inl rfl
      | some v => exact Or.inr (Or.inl ⟨v, rfl, rfl⟩)

theorem takeRun_all (p : Char → Bool) : ∀ s : Str, (takeRun p s).1.all p = true := by
  intro s
  induction s with
  | nil => rfl
  | cons c r ih =>
      unfold takeRun
      split_ifs with hc
      · simpa [hc] using ih
      · rfl

theorem takeRun_append (p : Char → Bool) :
    ∀ s : Str, (takeRun p s).1 ++ (takeRun p s).2 = s := by
  intro s
  induction s with
  | nil => rfl
  | cons c r ih =>
      unfold takeRun
      split_ifs with hc
      · simpa using ih
      · rfl

theorem schemeTail_of_alpha {c : Char} (h : isAlphaCh c = true) :
    isSchemeTail c = true := by
  simp [isSchemeTail, h]

theorem splitScheme_inv {s sc rest : Str} (h : splitScheme s = some (sc, rest)) :
    sc ≠ [] ∧ sc.all isSchemeTail = true ∧ s = sc ++ ':' :: rest := by
  cases s with
  | nil => exact absurd h (by simp [splitScheme])
  | cons c r =>
      rw [splitScheme] at h
      split_ifs at h with halpha
      cases ht2 : (takeRun isSchemeTail r).2 with
      | nil =>
          rw [ht2] at h
          exact Option.noConfusion h
      | cons d rest2 =>
          rw [ht2] at h
          dsimp only at h
          split_ifs at h with hd
          subst hd
          simp only [Option.some.injEq, Prod.mk.injEq] at h
          obtain ⟨hsc, hrest⟩ := h
          subst hsc
          subst hrest
          refine ⟨by simp, ?_, ?_⟩
          · simp only [List.all_cons, Bool.and_eq_true]
            exact ⟨schemeTail_of_alpha halpha, takeRun_all isSchemeTail r⟩
          · have := takeRun_append isSchemeTail r
            rw [ht2] at this
            simp only [List.cons_append, List.cons.injEq, true_and]
            exact this.symm

theorem urlScheme_chars {url v : Str}
    (h : (URL_REGEX_match url).scheme = some v) :
    v ≠ [] ∧ v.all isSchemeTail = true := by
  unfold URL_REGEX_match at h
  cases hs : splitScheme url with
  | none =>
      rw [hs] at h
      exact Option.noConfusion h
  | some q =>
      obtain ⟨sc, r⟩ := q
      rw [hs] at h
      dsimp only at h
      obtain rfl : sc = v := Option.some.inj h
      obtain ⟨h1, h2, _⟩ := splitScheme_inv hs
      exact ⟨h1, h2⟩

theorem scheme_component_chars {v : Str}
    (h : COMPONENT_REGEX_ok "scheme" v = true) : v.all isSchemeTail = true := by
  unfold COMPONENT_REGEX_ok at h
  rw [if_pos rfl] at h
  cases v with
  | nil => rfl
  | cons c r =>
      simp only [List.isEmpty_cons, Bool.false_or, Bool.and_eq_true] at h
      simp only [List.all_cons, Bool.and_eq_true]
      exact ⟨schemeTail_of_alpha (by simpa using h.1), by simpa using h.2⟩

theorem pyLower_schemeTail {s : Str} (h : s.all isSchemeTail = true) :
    (pyLower s).all isSchemeTail = true := by
  rw [List.all_eq_true] at h ⊢
  intro c hc
  obtain ⟨d, hd, hdc⟩ := List.mem_map.mp hc
  have hds := h d hd
  by_cases hu : (65 ≤ d.toNat && d.toNat ≤ 90) = true
  · rw [if_pos hu] at hdc
    subst hdc
    simp only [Bool.and_eq_true, decide_eq_true_eq] at hu
    have h65 : 65 ≤ d.toNat := hu.1
    have h90 : d.toNat ≤ 90 := hu.2
    interval_cases hdn : d.toNat <;> decide
  · rw [if_neg hu] at hdc
    subst hdc
    exact hds

theorem schemeTail_printable {c : Char} (h : isSchemeTail c = true) :
    printableAscii c = true := by
  simp only [isSchemeTail, isAlphaCh, isDigitCh, Bool.or_eq_true,
    Bool.and_eq_true, decide_eq_true_eq, beq_iff_eq, Nat.beq_eq_true_eq] at h
  simp only [printableAscii, Bool.and_eq_true, decide_eq_true_eq]
  omega

/-- **C3**: ASCII invariant: provided the abstract IDNA encoder emits only
printable ASCII (the source enforces ASCII via `.decode("ascii")`), every
field of every constructed `ParseResult` is printable ASCII, and the quoted
fields contain no character outside their configured safe set except as part
of a well-formed `%XX` escape. -/
theorem c3_ascii_invariant :
    ∀ (idnaEncode : Str → Option Str),
      (∀ s t, idnaEncode s = some t → t.all printableAscii = true) →
      ∀ (url : Str) (kwargs : Kw) (R : ParseResult),
        urlparse idnaEncode url kwargs = .ok R →
        R.scheme.all printableAscii = true ∧
        R.userinfo.all printableAscii = true ∧
        R.host.all printableAscii = true ∧
        R.path.all printableAscii = true ∧
        (∀ q, R.query = some q → q.all printableAscii = true) ∧
        (∀ f, R.fragment = some f → f.all printableAscii = true) ∧
        R.scheme.all isSchemeTail = true ∧
        (∀ c ∈ R.userinfo,
          c ∈ UNRESERVED_CHARACTERS ++ (SUB_DELIMS ++ [':']) ++ ['%']) ∧
        percentsEscaped R.userinfo = true ∧
        (∀ c ∈ R.path,
          c ∈ UNRESERVED_CHARACTERS ++ (SUB_DELIMS ++ [':', '@', '/']) ++ ['%']) ∧
        percentsEscaped R.path = true ∧
        (∀ q, R.query = some q →
          (∀ c ∈ q,
            c ∈ UNRESERVED_CHARACTERS ++ (SUB_DELIMS ++ ['/', '?']) ++ ['%']) ∧
          percentsEscaped q = true) ∧
        (∀ f, R.fragment = some f →
          (∀ c ∈ f,
            c ∈ UNRESERVED_CHARACTERS ++ (SUB_DELIMS ++ ['/', '?']) ++ ['%']) ∧
          percentsEscaped f = true) := by
  intro idna hidna url kwargs R h
  obtain ⟨_, _, hval, hnorm⟩ := urlparse_ok_checks h
  obtain ⟨ph, pp, pa, he, hp, hpa, hR⟩ := normalizeComponents_ok_inv hnorm
  subst hR
  have hscheme : (mergeComponents (preprocessKwargs kwargs) url).scheme.all
      isSchemeTail = true := by
    show (mergedOrEmpty (preprocessKwargs kwargs) "scheme"
      (URL_REGEX_match url).scheme).all isSchemeTail = true
    rcases mergedOrEmpty_cases (preprocessKwargs kwargs) "scheme"
        (URL_REGEX_match url).scheme with hc | ⟨v, hfind, hv⟩ | ⟨_, v, hdflt, hv⟩
    · rw [hc]
      rfl
    · rw [hv]
      exact scheme_component_chars
        (validate_ok_values _ hval _ _ (dictFind_mem hfind)).2.2
    · rw [hv]
      exact (urlScheme_chars hdflt).2
  refine ⟨?_, ?_, ?_, ?_, ?_, ?_, ?_, ?_, ?_, ?_, ?_, ?_, ?_⟩
  · rw [List.all_eq_true]
    intro c hc
    have := pyLower_schemeTail hscheme
    rw [List.all_eq_true] at this
    exact schemeTail_printable (this c hc)
  · rw [List.all_eq_true]
    exact quote_all_printable (by decide)
  · exact encode_host_ok_printable hidna he
  · rw [List.all_eq_true]
    exact quote_all_printable (by decide)
  · intro q hq
    obtain ⟨q0, hq0, rfl⟩ := Option.map_eq_some'.mp hq
    rw [List.all_eq_true]
    exact quote_all_printable (by decide)
  · intro f hf
    obtain ⟨f0, hf0, rfl⟩ := Option.map_eq_some'.mp hf
    rw [List.all_eq_true]
    exact quote_all_printable (by decide)
  · exact pyLower_schemeTail hscheme
  · exact quote_chars _ _
  · exact quote_pes _ _ (by decide)
  · exact quote_chars _ _
  · exact quote_pes _ _ (by decide)
  · intro q hq
    obtain ⟨q0, hq0, rfl⟩ := Option.map_eq_some'.mp hq
    exact ⟨quote_chars _ _, quote_pes _ _ (by decide)⟩
  · intro f hf
    obtain ⟨f0, hf0, rfl⟩ := Option.map_eq_some'.mp hf
    exact ⟨quote_chars _ _, quote_pes _ _ (by decide)⟩

/-- Witness for C3 at a concrete parse. -/
theorem c3_ascii_invariant_witness :
    (∀ (s t : Str), (fun _ => (none : Option Str)) s = some t →
      t.all printableAscii = true) ∧
    urlparse (fun _ => none) "http://u@example.com:81/p?q#f".toList [] =
      .ok ⟨"http".toList, ['u'], "example.com".toList, some 81, "/p".toList,
        some ['q'], some ['f']⟩ ∧
    "http".toList.all printableAscii = true :=
  ⟨fun s t h => Option.noConfusion h, by decide,
    (c3_ascii_invariant (fun _ => none) (fun s t h => Option.noConfusion h)
      "http://u@example.com:81/p?q#f".toList []
      ⟨"http".toList, ['u'], "example.com".toList, some 81, "/p".toList,
        some ['q'], some ['f']⟩ (by decide)).1⟩

/-! ## C10: explicit-None overrides -/

theorem urlparse_reduces {idna : Str → Option Str} {url : Str} {kwargs : Kw}
    (hlen : url.length ≤ MAX_URL_LENGTH)
    (hnp : url.any asciiNonPrintable = false)
    (hval : validateKwargs (preprocessKwargs kwargs) = .ok ()) :
    urlparse idna url kwargs =
      normalizeComponents idna (mergeComponents (preprocessKwargs kwargs) url) := by
  unfold urlparse
  rw [if_neg (by omega), if_neg (by simp [hnp]), hval]

theorem normalizeComponents_build {idna : Str → Option Str}
    {m : MergedComponents} {ph : Str} {pp : Option Int} {pa : Str}
    (he : encode_host idna m.host = .ok ph)
    (hp : normalize_port m.port m.scheme = .ok pp)
    (hpa : pathStep m = .ok pa) :
    normalizeComponents idna m =
      .ok ⟨pyLower m.scheme, quote m.userinfo (SUB_DELIMS ++ [':']), ph, pp,
        quote pa (SUB_DELIMS ++ [':', '@', '/']),
        m.query.map (fun q => quote q (SUB_DELIMS ++ ['/', '?'])),
        m.fragment.map (fun f => quote f (SUB_DELIMS ++ ['/', '?']))⟩ := by
  unfold normalizeComponents
  rw [he, hp, hpa]

theorem normalize_port_ok_any {p : Option Str} {s : Str} {v : Option Int}
    (h : normalize_port p s = .ok v) (s' : Str) :
    ∃ v', normalize_port p s' = .ok v' := by
  cases p with
  | none => exact ⟨none, rfl⟩
  | some x =>
      by_cases hx : x = []
      · subst hx
        exact ⟨none, rfl⟩
      · unfold normalize_port at h ⊢
        dsimp only at h ⊢
        rw [if_neg hx] at h ⊢
        cases hpi : pyInt x with
        | none =>
            rw [hpi] at h
            exact Except.noConfusion h
        | some n =>
            dsimp only
            by_cases hd : defaultPort s' = some n
            · rw [if_pos hd]
              exact ⟨none, rfl⟩
            · rw [if_neg hd]
              exact ⟨some n, rfl⟩

theorem pathStep_ok_of_le (m m' : MergedComponents) (hpath : m'.path = m.path)
    (himp : authorityTruthy m'.userinfo m'.host m'.port = true →
      authorityTruthy m.userinfo m.host m.port = true)
    {pa : Str} (h : pathStep m = .ok pa) : ∃ pa', pathStep m' = .ok pa' := by
  unfold pathStep at h ⊢
  by_cases ht' : authorityTruthy m'.userinfo m'.host m'.port = true
  · rw [if_pos ht']
    rw [if_pos (himp ht')] at h
    cases hv : validate_absolute_path m.path with
    | error e =>
        rw [hv] at h
        exact Except.noConfusion h
    | ok u =>
        cases u
        rw [hpath, hv]
        exact ⟨_, rfl⟩
  · rw [if_neg ht']
    exact ⟨_, rfl⟩

theorem pathStep_empty_path (m : MergedComponents) :
    pathStep {m with path := []} = .ok [] := by
  unfold pathStep
  dsimp only
  split_ifs <;> rfl

/-- **C10, counterexample**: `copy_with(query=None)` does not always yield a
result with the query absent: on the parse of `"http://1 2 34/"` (host stored
as `"1%202%2034"`), re-parsing the serialized baseline hits the loose IPv4
dispatch and fails with `InvalidURL`, so no `ParseResult` is produced at
all. -/
theorem c10_counterexample :
    urlparse (fun _ => none) "http://1 2 34/".toList [] =
      .ok ⟨"http".toList, [], "1%202%2034".toList, none, ['/'], none, none⟩ ∧
    ParseResult.copy_with (fun _ => none)
        ⟨"http".toList, [], "1%202%2034".toList, none, ['/'], none, none⟩
        [("query", none)] =
      .error (.invalidURL "Invalid IPv4 address") :=
  ⟨by decide, by decide⟩

set_option maxHeartbeats 1000000 in
/-- **C10, amended**: for every URL that parses, re-parsing it with a single
explicit-`None` override for a recognized component name succeeds and clears
that component: empty for scheme/userinfo/host/path, absent for
port/query/fragment.  For `copy_with`, an explicit `None` override likewise
takes precedence whenever the re-parse of the serialized baseline succeeds
(it can fail, as the counterexample shows); the example
`copy_with(query=None)` on `"http://a.com/p?q=1"` succeeds with the query
absent. -/
theorem c10_none_override :
    (∀ (idna : Str → Option Str) (url : Str) (R : ParseResult),
      urlparse idna url [] = .ok R →
      (∃ R1, urlparse idna url [("scheme", none)] = .ok R1 ∧ R1.scheme = []) ∧
      (∃ R2, urlparse idna url [("userinfo", none)] = .ok R2 ∧ R2.userinfo = []) ∧
      (∃ R3, urlparse idna url [("host", none)] = .ok R3 ∧ R3.host = []) ∧
      (∃ R4, urlparse idna url [("port", none)] = .ok R4 ∧ R4.port = none) ∧
      (∃ R5, urlparse idna url [("path", none)] = .ok R5 ∧ R5.path = []) ∧
      (∃ R6, urlparse idna url [("query", none)] = .ok R6 ∧ R6.query = none) ∧
      (∃ R7, urlparse idna url [("fragment", none)] = .ok R7 ∧
        R7.fragment = none)) ∧
    (∀ (idna : Str → Option Str) (r R' : ParseResult),
      ParseResult.copy_with idna r [("query", none)] = .ok R' →
      R'.query = none) ∧
    ParseResult.copy_with (fun _ => none)
        ⟨"http".toList, [], "a.com".toList, none, "/p".toList,
          some "q=1".toList, none⟩ [("query", none)] =
      .ok ⟨"http".toList, [], "a.com".toList, none, "/p".toList, none, none⟩ := by
  refine ⟨?_, ?_, by decide⟩
  · intro idna url R h
    obtain ⟨hlen, hnp, hval0, hnorm0⟩ := urlparse_ok_checks h
    have hnorm : normalizeComponents idna (mergeComponents [] url) = .ok R :=
      hnorm0
    obtain ⟨ph, pp, pa, he, hp, hpa, hR⟩ := normalizeComponents_ok_inv hnorm
    refine ⟨?_, ?_, ?_, ?_, ?_, ?_, ?_⟩
    · -- scheme := None
      rw [urlparse_reduces hlen hnp (by decide),
        show mergeComponents (preprocessKwargs [("scheme", none)]) url =
          {mergeComponents [] url with scheme := []} from rfl]
      obtain ⟨pp', hpp'⟩ := normalize_port_ok_any hp []
      exact ⟨_, normalizeComponents_build he hpp' hpa, rfl⟩
    · -- userinfo := None
      rw [urlparse_reduces hlen hnp (by decide),
        show mergeComponents (preprocessKwargs [("userinfo", none)]) url =
          {mergeComponents [] url with userinfo := []} from rfl]
      obtain ⟨pa', hpa'⟩ := pathStep_ok_of_le (mergeComponents [] url)
        {mergeComponents [] url with userinfo := []} rfl
        (by
          unfold authorityTruthy
          dsimp only
          intro hx
          simp only [Bool.or_eq_true] at hx ⊢
          tauto) hpa
      exact ⟨_, normalizeComponents_build he hp hpa', rfl⟩
    · -- host := None
      rw [urlparse_reduces hlen hnp (by decide),
        show mergeComponents (preprocessKwargs [("host", none)]) url =
          {mergeComponents [] url with host := []} from rfl]
      obtain ⟨pa', hpa'⟩ := pathStep_ok_of_le (mergeComponents [] url)
        {mergeComponents [] url with host := []} rfl
        (by
          unfold authorityTruthy
          dsimp only
          intro hx
          simp only [Bool.or_eq_true] at hx ⊢
          tauto) hpa
      exact ⟨_, normalizeComponents_build rfl hp hpa', rfl⟩
    · -- port := None
      rw [urlparse_reduces hlen hnp (by decide),
        show mergeComponents (preprocessKwargs [("port", none)]) url =
          {mergeComponents [] url with port := none} from rfl]
      obtain ⟨pa', hpa'⟩ := pathStep_ok_of_le (mergeComponents [] url)
        {mergeComponents [] url with port := none} rfl
        (by
          unfold authorityTruthy
          dsimp only
          intro hx
          simp only [Bool.or_eq_true] at hx ⊢
          tauto) hpa
      exact ⟨_, normalizeComponents_build he rfl hpa', rfl⟩
    · -- path := None
      rw [urlparse_reduces hlen hnp (by decide),
        show mergeComponents (preprocessKwargs [("path", none)]) url =
          {mergeComponents [] url with path := []} from rfl]
      exact ⟨_, normalizeComponents_build he hp (pathStep_empty_path _), rfl⟩
    · -- query := None
      rw [urlparse_reduces hlen hnp (by decide),
        show mergeComponents (preprocessKwargs [("query", none)]) url =
          {mergeComponents [] url with query := none} from rfl]
      exact ⟨_, normalizeComponents_build he hp hpa, rfl⟩
    · -- fragment := None
      rw [urlparse_reduces hlen hnp (by decide),
        show mergeComponents (preprocessKwargs [("fragment", none)]) url =
          {mergeComponents [] url with fragment := none} from rfl]
      exact ⟨_, normalizeComponents_build he hp hpa, rfl⟩
  · intro idna r R' h
    unfold ParseResult.copy_with at h
    rw [if_neg (by decide)] at h
    obtain ⟨_, _, _, hnorm⟩ := urlparse_ok_checks h
    obtain ⟨ph, pp, pa, he, hp, hpa, hR⟩ := normalizeComponents_ok_inv hnorm
    rw [hR]
    rfl

/-- Witness for the amended C10 on a concrete parse. -/
theorem c10_none_override_witness :
    urlparse (fun _ => none) "http://a.com/p?q=1".toList [] =
      .ok ⟨"http".toList, [], "a.com".toList, none, "/p".toList,
        some "q=1".toList, none⟩ ∧
    (∃ R6, urlparse (fun _ => none) "http://a.com/p?q=1".toList
        [("query", none)] = .ok R6 ∧ R6.query = none) :=
  ⟨by decide,
    ((c10_none_override.1 (fun _ => none) "http://a.com/p?q=1".toList
      ⟨"http".toList, [], "a.com".toList, none, "/p".toList,
        some "q=1".toList, none⟩ (by decide)).2.2.2.2.2.1)⟩

/-! ## C1: round-trip stability -/

theorem takeRun_stop {p : Char → Bool} {b : Str}
    (h : b = [] ∨ p b.headI = false) : takeRun p b = ([], b) := by
  cases b with
  | nil => rfl
  | cons c r =>
      have hc : p c = false := by simpa using h.resolve_left (by simp)
      unfold takeRun
      rw [hc]
      simp

theorem takeRun_takes {p : Char → Bool} {a b : Str} (ha : a.all p = true)
    (hb : b = [] ∨ p b.headI = false) : takeRun p (a ++ b) = (a, b) := by
  induction a with
  | nil => simpa using takeRun_stop hb
  | cons c r ih =>
      simp only [List.all_cons, Bool.and_eq_true] at ha
      simp only [List.cons_append]
      unfold takeRun
      rw [ha.1, ih ha.2]
      simp

theorem splitFirst_none {sep : Char} {a : Str} (h : sep ∉ a) :
    splitFirst sep a = none := by
  induction a with
  | nil => rfl
  | cons c r ih =>
      simp only [List.mem_cons, not_or] at h
      unfold splitFirst
      rw [if_neg (by exact fun hc => h.1 hc.symm), ih h.2]
      rfl

theorem splitFirst_append {sep : Char} {a b : Str} (h : sep ∉ a) :
    splitFirst sep (a ++ sep :: b) = some (a, b) := by
  induction a with
  | nil => simp [splitFirst]
  | cons c r ih =>
      simp only [List.mem_cons, not_or] at h
      simp only [List.cons_append]
      unfold splitFirst
      rw [if_neg (by exact fun hc => h.1 hc.symm), ih h.2]
      rfl

theorem splitLastKeep_eq {sep : Char} {x y : Str} (h : sep ∉ y) :
    splitLastKeep sep (x ++ sep :: y) = some (x ++ [sep], y) := by
  unfold splitLastKeep
  have hrev : (x ++ sep :: y).reverse = y.reverse ++ sep :: x.reverse := by
    simp
  rw [hrev, splitFirst_append (by simpa using h)]
  simp

theorem pySplit_cons_of_ne {sep c : Char} {r : Str} (h : ¬ c = sep) :
    pySplit sep (c :: r) =
      (c :: (pySplit sep r).headI) :: (pySplit sep r).tail := by
  simp only [pySplit]
  rw [if_neg h]

theorem pySplit_append {sep : Char} {a b : Str} (h : sep ∉ a) :
    pySplit sep (a ++ b) =
      (a ++ (pySplit sep b).headI) :: (pySplit sep b).tail := by
  induction a with
  | nil =>
      simp only [List.nil_append]
      have hne := pySplit_ne_nil sep b
      cases hb : pySplit sep b with
      | nil => exact absurd hb hne
      | cons q t => rfl
  | cons c r ih =>
      simp only [List.mem_cons, not_or] at h
      simp only [List.cons_append]
      rw [pySplit_cons_of_ne (by exact fun hc => h.1 hc.symm), ih h.2]
      rfl

theorem mem_pySplit_no_sep {sep : Char} :
    ∀ {s : Str}, ∀ x ∈ pySplit sep s, sep ∉ x := by
  intro s
  induction s with
  | nil =>
      intro x hx
      simp only [pySplit, List.mem_singleton] at hx
      subst hx
      simp
  | cons c r ih =>
      intro x hx
      by_cases hc : c = sep
      · rw [pySplit, if_pos hc] at hx
        rcases List.mem_cons.mp hx with hx | hx
        · subst hx
          simp
        · exact ih x hx
      · rw [pySplit_cons_of_ne hc] at hx
        have hne := pySplit_ne_nil sep r
        cases hr : pySplit sep r with
        | nil => exact absurd hr hne
        | cons q t =>
            rw [hr] at hx
            simp only [List.headI_cons, List.tail_cons] at hx
            rcases List.mem_cons.mp hx with hx | hx
            · subst hx
              intro hmem
              rcases List.mem_cons.mp hmem with hmem | hmem
              · exact hc hmem.symm
              · exact ih q (by simp [hr]) hmem
            · exact ih x (by simp [hr, hx])

theorem pySplit_no_sep_eq {sep : Char} {s : Str} (h : sep ∉ s) :
    pySplit sep s = [s] := by
  induction s with
  | nil => rfl
  | cons c r ih =>
      simp only [List.mem_cons, not_or] at h
      rw [pySplit_cons_of_ne (by exact fun hc => h.1 hc.symm), ih h.2]
      rfl

theorem foldl_step_no_dots {l : List Str} (h : ∀ x ∈ l, x ≠ ['.'] ∧ x ≠ ['.', '.']) :
    ∀ acc, List.foldl dotSegmentStep acc l = acc ++ l := by
  induction l with
  | nil => intro acc; simp
  | cons c t ih =>
      intro acc
      have hc := h c (by simp)
      have hstep : dotSegmentStep acc c = acc ++ [c] := by
        unfold dotSegmentStep
        rw [if_neg hc.1, if_neg hc.2]
      simp only [List.foldl_cons, hstep]
      rw [ih (fun x hx => h x (by simp [hx])) (acc ++ [c])]
      simp

theorem np_nodots {q : Str}
    (h : ∀ seg ∈ pySplit '/' q, seg ≠ ['.'] ∧ seg ≠ ['.', '.']) :
    normalize_path q = q := by
  unfold normalize_path
  rw [foldl_step_no_dots h []]
  simpa using pyJoin_pySplit '/' q

theorem foldl_step_mem {l : List Str} :
    ∀ acc, ∀ x ∈ List.foldl dotSegmentStep acc l,
      x ∈ acc ∨ (x ∈ l ∧ x ≠ ['.'] ∧ x ≠ ['.', '.']) := by
  induction l with
  | nil =>
      intro acc x hx
      exact Or.inl (by simpa using hx)
  | cons c t ih =>
      intro acc x hx
      simp only [List.foldl_cons] at hx
      rcases ih (dotSegmentStep acc c) x hx with hin | hin
      · unfold dotSegmentStep at hin
        split_ifs at hin with h1 h2 h3
        · exact Or.inl hin
        · exact Or.inl (List.dropLast_subset _ hin)
        · exact Or.inl hin
        · rcases List.mem_append.mp hin with hin | hin
          · exact Or.inl hin
          · have hxc : x = c := by simpa using hin
            subst hxc
            exact Or.inr ⟨by simp, h1, h2⟩
      · exact Or.inr ⟨by simp [hin.1], hin.2⟩

theorem pySplit_pyJoin_mem {out : List Str} (h : ∀ x ∈ out, '/' ∉ x) :
    ∀ seg ∈ pySplit '/' (pyJoin '/' out), seg ∈ out ∨ seg = [] := by
  induction out with
  | nil =>
      intro seg hseg
      simp only [pyJoin, pySplit, List.mem_singleton] at hseg
      exact Or.inr hseg
  | cons x t ih =>
      intro seg hseg
      cases t with
      | nil =>
          rw [show pyJoin '/' [x] = x from rfl,
            pySplit_no_sep_eq (h x (by simp))] at hseg
          exact Or.inl (by simpa using hseg)
      | cons y t2 =>
          rw [show pyJoin '/' (x :: y :: t2) = x ++ '/' :: pyJoin '/' (y :: t2)
              from rfl,
            pySplit_append (h x (by simp))] at hseg
          rw [show pySplit '/' ('/' :: pyJoin '/' (y :: t2)) =
              [] :: pySplit '/' (pyJoin '/' (y :: t2)) by
                simp [pySplit]] at hseg
          simp only [List.headI_cons, List.tail_cons, List.append_nil] at hseg
          rcases List.mem_cons.mp hseg with hseg | hseg
          · exact Or.inl (by simp [hseg])
          · rcases ih (fun z hz => h z (by simp [hz])) seg hseg with hs | hs
            · exact Or.inl (by simp [hs])
            · exact Or.inr hs

theorem np_segments {p : Str} :
    ∀ seg ∈ pySplit '/' (normalize_path p),
      seg ≠ ['.'] ∧ seg ≠ ['.', '.'] := by
  intro seg hseg
  unfold normalize_path at hseg
  have hout : ∀ x ∈ List.foldl dotSegmentStep [] (pySplit '/' p), '/' ∉ x := by
    intro x hx
    rcases foldl_step_mem [] x hx with hx | hx
    · simp at hx
    · exact mem_pySplit_no_sep x hx.1
  rcases pySplit_pyJoin_mem hout seg hseg with hs | hs
  · rcases foldl_step_mem [] seg hs with hs2 | hs2
    · simp at hs2
    · exact hs2.2
  · subst hs
    exact ⟨by simp, by simp⟩

theorem percent_encode_length (c : Char) : 3 ≤ (percent_encode c).length := by
  unfold percent_encode utf8Bytes
  split_ifs <;> simp [concatMap, pctByte]

theorem concatMap_append {α : Type} (f : α → Str) (a b : List α) :
    concatMap f (a ++ b) = concatMap f a ++ concatMap f b := by
  induction a with
  | nil => rfl
  | cons x t ih => simp [concatMap, ih]

theorem concatMap_nondot {f : Char → Str}
    (hf : ∀ c, f c = [c] ∨ f c = percent_encode c) {seg : Str}
    (h1 : seg ≠ ['.']) (h2 : seg ≠ ['.', '.']) :
    concatMap f seg ≠ ['.'] ∧ concatMap f seg ≠ ['.', '.'] := by
  have hlen : ∀ c, 1 ≤ (f c).length := by
    intro c
    rcases hf c with hc | hc
    · simp [hc]
    · rw [hc]
      have := percent_encode_length c
      omega
  cases seg with
  | nil => exact ⟨by simp [concatMap], by simp [concatMap]⟩
  | cons a r =>
      cases r with
      | nil =>
          rw [show concatMap f [a] = f a ++ [] from rfl, List.append_nil]
          rcases hf a with ha | ha
          · rw [ha]
            constructor
            · intro hcon
              apply h1
              simpa using hcon
            · intro hcon
              exact absurd (congrArg List.length hcon) (by simp)
          · rw [ha]
            have := percent_encode_length a
            constructor
            · intro hcon
              rw [hcon] at this
              simp at this
            · intro hcon
              rw [hcon] at this
              simp at this
      | cons b r2 =>
          cases r2 with
          | nil =>
              rw [show concatMap f [a, b] = f a ++ (f b ++ []) from rfl,
                List.append_nil]
              constructor
              · intro hcon
                have := congrArg List.length hcon
                simp only [List.length_append, List.length_cons,
                  List.length_nil] at this
                have h3 := hlen a
                have h4 := hlen b
                omega
              · intro hcon
                have hla : (f a).length = 1 := by
                  have := congrArg List.length hcon
                  simp only [List.length_append, List.length_cons,
                    List.length_nil] at this
                  have h3 := hlen a
                  have h4 := hlen b
                  omega
                have hfa : f a = [a] := by
                  rcases hf a with ha | ha
                  · exact ha
                  · rw [ha] at hla
                    have := percent_encode_length a
                    omega
                have hlb : (f b).length = 1 := by
                  have := congrArg List.length hcon
                  simp only [List.length_append, List.length_cons,
                    List.length_nil] at this
                  rw [hfa] at this
                  simp at this
                  omega
                have hfb : f b = [b] := by
                  rcases hf b with hb | hb
                  · exact hb
                  · rw [hb] at hlb
                    have := percent_encode_length b
                    omega
                rw [hfa, hfb] at hcon
                apply h2
                simpa using hcon
          | cons c r3 =>
              have hlong : 3 ≤ (concatMap f (a :: b :: c :: r3)).length := by
                rw [show concatMap f (a :: b :: c :: r3) =
                    f a ++ (f b ++ (f c ++ concatMap f r3)) from rfl]
                simp only [List.length_append]
                have h3 := hlen a
                have h4 := hlen b
                have h5 := hlen c
                omega
              constructor
              · intro hcon
                rw [hcon] at hlong
                simp at hlong
              · intro hcon
                rw [hcon] at hlong
                simp at hlong

theorem concatMap_split {f : Char → Str} (hf1 : f '/' = ['/'])
    (hf2 : ∀ c, ¬ c = '/' → '/' ∉ f c) :
    ∀ s : Str, pySplit '/' (concatMap f s) = (pySplit '/' s).map (concatMap f) := by
  intro s
  induction s with
  | nil => rfl
  | cons c r ih =>
      by_cases hc : c = '/'
      · subst hc
        rw [show concatMap f ('/' :: r) = f '/' ++ concatMap f r from rfl, hf1]
        simp only [List.singleton_append]
        rw [show pySplit '/' ('/' :: concatMap f r) =
            [] :: pySplit '/' (concatMap f r) by simp [pySplit]]
        rw [show pySplit '/' ('/' :: r) = [] :: pySplit '/' r by
          simp [pySplit]]
        rw [ih]
        rfl
      · rw [show concatMap f (c :: r) = f c ++ concatMap f r from rfl]
        rw [pySplit_append (hf2 c hc), pySplit_cons_of_ne hc, ih]
        have hne := pySplit_ne_nil '/' r
        cases hr : pySplit '/' r with
        | nil => exact absurd hr hne
        | cons q t =>
            simp only [List.map_cons, List.headI_cons, List.tail_cons]
            rw [show concatMap f (c :: q) = f c ++ concatMap f q from rfl]

theorem np_quote_fix {p : Str} {safe : Str} (hsafe : '/' ∈ safe) :
    normalize_path (quote (normalize_path p) safe) =
      quote (normalize_path p) safe := by
  apply np_nodots
  intro seg hseg
  unfold quote at hseg
  rw [concatMap_split (f := fun char =>
      if char ∈ quoteNonEscaped (normalize_path p) safe then [char]
      else percent_encode char)
    (by
      dsimp only
      rw [if_pos]
      unfold quoteNonEscaped
      split_ifs <;> simp [hsafe])
    (by
      intro c hc hmem
      dsimp only at hmem
      split_ifs at hmem with hin
      · have hcc : '/' = c := by simpa using hmem
        exact hc hcc.symm
      · rcases mem_percent_encode hmem with hx | hx
        · exact absurd hx.symm (by decide)
        · exact absurd hx (by decide))] at hseg
  obtain ⟨seg0, hseg0, rfl⟩ := List.mem_map.mp hseg
  have hnd := np_segments seg0 hseg0
  refine concatMap_nondot ?_ hnd.1 hnd.2
  intro c
  dsimp only
  split_ifs
  · exact Or.inl rfl
  · exact Or.inr rfl

theorem pyLower_idem (s : Str) : pyLower (pyLower s) = pyLower s := by
  unfold pyLower
  rw [List.map_map]
  apply List.map_congr_left
  intro c _
  simp only [Function.comp_apply]
  by_cases hu : (65 ≤ c.toNat && c.toNat ≤ 90) = true
  · rw [if_pos hu]
    simp only [Bool.and_eq_true, decide_eq_true_eq] at hu
    have h65 : 65 ≤ c.toNat := hu.1
    have h90 : c.toNat ≤ 90 := hu.2
    interval_cases hcn : c.toNat <;> decide
  · rw [if_neg hu, if_neg hu]

theorem pyLower_head_alpha {c : Char} {t : Str} (h : isAlphaCh c = true) :
    pyLower (c :: t) ≠ [] ∧ isAlphaCh (pyLower (c :: t)).headI = true := by
  refine ⟨by simp [pyLower], ?_⟩
  show isAlphaCh (if 65 ≤ c.toNat && c.toNat ≤ 90 then Char.ofNat (c.toNat + 32)
    else c) = true
  by_cases hu : (65 ≤ c.toNat && c.toNat ≤ 90) = true
  · rw [if_pos hu]
    simp only [Bool.and_eq_true, decide_eq_true_eq] at hu
    have h65 : 65 ≤ c.toNat := hu.1
    have h90 : c.toNat ≤ 90 := hu.2
    interval_cases hcn : c.toNat <;> decide
  · rw [if_neg hu]
    exact h

theorem urlScheme_alpha {url v : Str}
    (h : (URL_REGEX_match url).scheme = some v) : isAlphaCh v.headI = true := by
  unfold URL_REGEX_match at h
  cases hs : splitScheme url with
  | none =>
      rw [hs] at h
      exact Option.noConfusion h
  | some q =>
      obtain ⟨sc, r⟩ := q
      rw [hs] at h
      dsimp only at h
      obtain rfl : sc = v := Option.some.inj h
      cases url with
      | nil => exact absurd hs (by simp [splitScheme])
      | cons c0 r0 =>
          rw [splitScheme] at hs
          split_ifs at hs with halpha
          cases ht2 : (takeRun isSchemeTail r0).2 with
          | nil =>
              rw [ht2] at hs
              exact Option.noConfusion hs
          | cons d rest2 =>
              rw [ht2] at hs
              dsimp only at hs
              split_ifs at hs with hd
              simp only [Option.some.injEq, Prod.mk.injEq] at hs
              rw [← hs.1]
              simpa using halpha

theorem scheme_component_alpha {v : Str}
    (h : COMPONENT_REGEX_ok "scheme" v = true) (hne : v ≠ []) :
    isAlphaCh v.headI = true := by
  unfold COMPONENT_REGEX_ok at h
  rw [if_pos rfl] at h
  cases v with
  | nil => exact absurd rfl hne
  | cons c r =>
      simp only [List.isEmpty_cons, Bool.false_or, Bool.and_eq_true] at h
      simpa using h.1

theorem splitScheme_build {sc rest : Str} (hne : sc ≠ [])
    (halpha : isAlphaCh sc.headI = true) (htail : sc.all isSchemeTail = true) :
    splitScheme (sc ++ ':' :: rest) = some (sc, rest) := by
  obtain ⟨c, t, rfl⟩ := List.exists_cons_of_ne_nil hne
  simp only [List.headI_cons] at halpha
  simp only [List.all_cons, Bool.and_eq_true] at htail
  rw [List.cons_append, splitScheme, if_pos halpha]
  have hstop : (':' :: rest : Str) = [] ∨
      isSchemeTail ((':' :: rest : Str)).headI = false :=
    Or.inr (show isSchemeTail ':' = false from by decide)
  rw [takeRun_takes htail.2 hstop]
  simp

theorem natToStr_ne_nil (n : Nat) : natToStr n ≠ [] := by
  unfold natToStr
  split_ifs <;> simp

theorem natToStr_digits (n : Nat) : (natToStr n).all isDigitCh = true := by
  induction n using Nat.strong_induction_on with
  | _ n ih =>
      unfold natToStr
      split_ifs with h
      · have h10 : n < 10 := h
        interval_cases n <;> decide
      · rw [List.all_append]
        have hdiv : n / 10 < n := Nat.div_lt_self (by omega) (by omega)
        rw [ih (n / 10) hdiv]
        have hm : n % 10 < 10 := Nat.mod_lt _ (by omega)
        have : isDigitCh (Char.ofNat (48 + n % 10)) = true := by
          set r := n % 10 with hr
          interval_cases r <;> decide
        simp [this]

theorem digitsVal_natToStr (n : Nat) : digitsVal (natToStr n) = n := by
  induction n using Nat.strong_induction_on with
  | _ n ih =>
      unfold natToStr
      split_ifs with h
      · have h10 : n < 10 := h
        interval_cases n <;> decide
      · unfold digitsVal
        rw [List.foldl_append]
        have hdiv : n / 10 < n := Nat.div_lt_self (by omega) (by omega)
        have hd := ih (n / 10) hdiv
        unfold digitsVal at hd
        rw [hd]
        simp only [List.foldl_cons, List.foldl_nil]
        have hm : n % 10 < 10 := Nat.mod_lt _ (by omega)
        have hcn : (Char.ofNat (48 + n % 10)).toNat = 48 + n % 10 := by
          set r := n % 10 with hr
          interval_cases r <;> decide
        rw [hcn]
        omega

theorem noDoubleUnder_cons {c d : Char} {r : Str} (hc : ¬ c = '_') :
    noDoubleUnder (c :: d :: r) = noDoubleUnder (d :: r) := by
  conv_lhs => rw [noDoubleUnder.eq_def]
  split
  · rename_i heq
    injection heq with h1 _
    exact absurd h1 hc
  · rename_i heq
    injection heq with _ h2
    rw [← h2]
  · rename_i heq
    exact absurd heq (by simp)

theorem noDoubleUnder_of_all {s : Str} (h : s.all isDigitCh = true) :
    noDoubleUnder s = true := by
  induction s with
  | nil => rfl
  | cons c r ih =>
      simp only [List.all_cons, Bool.and_eq_true] at h
      have hc : ¬ c = '_' := by
        intro hcu
        subst hcu
        exact absurd h.1 (by decide)
      cases r with
      | nil =>
          conv_lhs => rw [noDoubleUnder.eq_def]
          split
          · rename_i heq
            exact absurd heq (by simp)
          · rename_i heq
            injection heq with _ h2
            rw [← h2]
            rfl
          · rename_i heq
            exact absurd heq (by simp)
      | cons d r2 =>
          rw [noDoubleUnder_cons hc]
          exact ih h.2

theorem digitsUnder_natToStr (n : Nat) : digitsUnder (natToStr n) = some n := by
  have hall := natToStr_digits n
  have hne := natToStr_ne_nil n
  have hhead : isDigitCh (natToStr n).headI = true := by
    obtain ⟨c, t, hct⟩ := List.exists_cons_of_ne_nil hne
    rw [hct]
    have := (List.all_eq_true.mp hall) c (by simp [hct])
    simpa using this
  have hlast : isDigitCh ((natToStr n).getLast?.getD '_') = true := by
    cases hg : (natToStr n).getLast? with
    | none => exact absurd (List.getLast?_eq_none_iff.mp hg) hne
    | some c =>
        obtain ⟨hh, hceq⟩ := List.mem_getLast?_eq_getLast
          (show c ∈ (natToStr n).getLast? from by
            simp [Option.mem_def, hg])
        have hmem : c ∈ natToStr n := by
          rw [hceq]
          exact List.getLast_mem hh
        have := (List.all_eq_true.mp hall) c hmem
        simpa using this
  have hfilter : (natToStr n).filter (· != '_') = natToStr n := by
    rw [List.filter_eq_self]
    intro c hc
    have := (List.all_eq_true.mp hall) c hc
    simp only [bne_iff_ne, ne_eq, decide_eq_true_eq]
    intro hcu
    subst hcu
    exact absurd this (by decide)
  have hcond : (!(natToStr n).isEmpty &&
      (natToStr n).all (fun c => isDigitCh c || c == '_') &&
      isDigitCh (natToStr n).headI &&
      isDigitCh ((natToStr n).getLast?.getD '_') &&
      noDoubleUnder (natToStr n)) = true := by
    simp only [Bool.and_eq_true]
    refine ⟨⟨⟨⟨?_, ?_⟩, hhead⟩, hlast⟩, noDoubleUnder_of_all hall⟩
    · simpa using hne
    · rw [List.all_eq_true]
      intro c hc
      have := (List.all_eq_true.mp hall) c hc
      simp [this]
  unfold digitsUnder
  rw [if_pos hcond, hfilter, digitsVal_natToStr]

theorem stripWs_id {s : Str} (h : ∀ c ∈ s, isPyWs c = false) :
    stripWs s = s := by
  unfold stripWs
  have h1 : s.dropWhile isPyWs = s := by
    rw [List.dropWhile_eq_self_iff]
    intro hl
    rw [h (s.get ⟨0, hl⟩) (List.get_mem s 0 hl)]
    simp
  rw [h1]
  have h2 : s.reverse.dropWhile isPyWs = s.reverse := by
    rw [List.dropWhile_eq_self_iff]
    intro hl
    rw [h (s.reverse.get ⟨0, hl⟩) (by
      have := List.get_mem s.reverse 0 hl
      simp only [List.mem_reverse] at this
      exact this)]
    simp
  rw [h2, List.reverse_reverse]

theorem digit_not_ws {c : Char} (h : isDigitCh c = true) : isPyWs c = false := by
  by_contra hx
  have hx2 : isPyWs c = true := by
    cases hb : isPyWs c
    · exact absurd hb hx
    · rfl
  simp only [isDigitCh, Bool.and_eq_true, decide_eq_true_eq] at h
  simp only [isPyWs, Bool.or_eq_true, beq_iff_eq] at hx2
  rcases hx2 with ((((hc | hc) | hc) | hc) | hc) | hc
  · subst hc; exact absurd h (by decide)
  · subst hc; exact absurd h (by decide)
  · subst hc; exact absurd h (by decide)
  · subst hc; exact absurd h (by decide)
  · omega
  · omega

theorem pyInt_no_sign {s : Str} (hne : s ≠ []) (hm : s.headI ≠ '-')
    (hp : s.headI ≠ '+') (hws : ∀ c ∈ s, isPyWs c = false) :
    pyInt s = (digitsUnder s).map (fun n => (n : Int)) := by
  unfold pyInt
  rw [stripWs_id hws]
  obtain ⟨c, t, rfl⟩ := List.exists_cons_of_ne_nil hne
  simp only [List.headI_cons] at hm hp
  split
  · rename_i r heq
    injection heq with h1 _
    exact absurd h1 hm
  · rename_i r heq
    injection heq with h1 _
    exact absurd h1 hp
  · rfl

theorem pyInt_natToStr (n : Nat) : pyInt (natToStr n) = some (n : Int) := by
  have hall := natToStr_digits n
  have hne := natToStr_ne_nil n
  have hws : ∀ c ∈ natToStr n, isPyWs c = false := fun c hc =>
    digit_not_ws ((List.all_eq_true.mp hall) c hc)
  have hhead : isDigitCh (natToStr n).headI = true := by
    obtain ⟨c, t, hct⟩ := List.exists_cons_of_ne_nil hne
    rw [hct]
    have := (List.all_eq_true.mp hall) c (by simp [hct])
    simpa using this
  have hm : (natToStr n).headI ≠ '-' := by
    intro hcc
    rw [hcc] at hhead
    exact absurd hhead (by decide)
  have hp : (natToStr n).headI ≠ '+' := by
    intro hcc
    rw [hcc] at hhead
    exact absurd hhead (by decide)
  rw [pyInt_no_sign hne hm hp hws, digitsUnder_natToStr n]
  rfl

theorem pyInt_intToStr (p : Int) : pyInt (intToStr p) = some p := by
  unfold intToStr
  split_ifs with hneg
  · have hall := natToStr_digits p.natAbs
    have hws : ∀ c ∈ '-' :: natToStr p.natAbs, isPyWs c = false := by
      intro c hc
      rcases List.mem_cons.mp hc with hc | hc
      · subst hc
        decide
      · exact digit_not_ws ((List.all_eq_true.mp hall) c hc)
    unfold pyInt
    rw [stripWs_id hws]
    split
    · rename_i r heq
      injection heq with _ h2
      subst h2
      rw [digitsUnder_natToStr p.natAbs]
      exact congrArg some (by omega : -(p.natAbs : Int) = p)
    · rename_i r heq
      injection heq with h1 _
      exact absurd h1 (by decide)
    · rename_i hno1 hno2
      exact (hno1 (natToStr p.natAbs) rfl).elim
  · rw [pyInt_natToStr p.toNat]
    congr 1
    omega

theorem intToStr_ne_nil (p : Int) : intToStr p ≠ [] := by
  unfold intToStr
  split_ifs
  · simp
  · exact natToStr_ne_nil _

theorem intToStr_chars {p : Int} :
    ∀ c ∈ intToStr p, isDigitCh c = true ∨ c = '-' := by
  intro c hc
  unfold intToStr at hc
  split_ifs at hc
  · rcases List.mem_cons.mp hc with hc | hc
    · exact Or.inr hc
    · exact Or.inl ((List.all_eq_true.mp (natToStr_digits _)) c hc)
  · exact Or.inl ((List.all_eq_true.mp (natToStr_digits _)) c hc)

theorem headI_append_left {a b : Str} (h : a ≠ []) :
    (a ++ b).headI = a.headI := by
  cases a with
  | nil => exact absurd rfl h
  | cons c r => rfl

theorem not_nonprintable {c : Char} (h : printableAscii c = true) :
    asciiNonPrintable c = false := by
  simp only [printableAscii, Bool.and_eq_true, decide_eq_true_eq] at h
  unfold asciiNonPrintable
  have h1 : decide (c.toNat < 32) = false := by
    simp only [decide_eq_false_iff_not, not_lt]
    omega
  have h2 : (c.toNat == 127) = false := by
    simp only [beq_eq_false_iff_ne, ne_eq]
    omega
  rw [h1, h2]
  simp

theorem URL_REGEX_match_eq_some {url S rest1 rest2 rest3 rest4 : Str}
    {optA : Option Str} {Pa : Str} {Q F : Option Str}
    (h1 : splitScheme url = some (S, rest1))
    (h2 : (if rest1.take 2 = ['/', '/'] then
        ((some (takeRun (fun c => !(c == '/' || c == '?' || c == '#'))
            (rest1.drop 2)).1 : Option Str),
          (takeRun (fun c => !(c == '/' || c == '?' || c == '#'))
            (rest1.drop 2)).2)
      else (none, rest1)) = (optA, rest2))
    (h3 : takeRun (fun c => !(c == '?' || c == '#')) rest2 = (Pa, rest3))
    (h4 : (if rest3.take 1 = ['?'] then
        ((some (takeRun (fun c => !(c == '#')) (rest3.drop 1)).1 : Option Str),
          (takeRun (fun c => !(c == '#')) (rest3.drop 1)).2)
      else (none, rest3)) = (Q, rest4))
    (h5 : (if rest4.take 1 = ['#'] then
        (some (takeRun (fun c => !(c == '\n')) (rest4.drop 1)).1 : Option Str)
      else none) = F) :
    URL_REGEX_match url = ⟨some S, optA, Pa, Q, F⟩ := by
  unfold URL_REGEX_match
  rw [h1]
  dsimp only
  rw [h2]
  dsimp only
  rw [h3]
  dsimp only
  rw [h4]
  dsimp only
  rw [h5]

theorem URL_REGEX_match_eq_none {url rest2 rest3 rest4 : Str}
    {optA : Option Str} {Pa : Str} {Q F : Option Str}
    (h1 : splitScheme url = none)
    (h2 : (if url.take 2 = ['/', '/'] then
        ((some (takeRun (fun c => !(c == '/' || c == '?' || c == '#'))
            (url.drop 2)).1 : Option Str),
          (takeRun (fun c => !(c == '/' || c == '?' || c == '#'))
            (url.drop 2)).2)
      else (none, url)) = (optA, rest2))
    (h3 : takeRun (fun c => !(c == '?' || c == '#')) rest2 = (Pa, rest3))
    (h4 : (if rest3.take 1 = ['?'] then
        ((some (takeRun (fun c => !(c == '#')) (rest3.drop 1)).1 : Option Str),
          (takeRun (fun c => !(c == '#')) (rest3.drop 1)).2)
      else (none, rest3)) = (Q, rest4))
    (h5 : (if rest4.take 1 = ['#'] then
        (some (takeRun (fun c => !(c == '\n')) (rest4.drop 1)).1 : Option Str)
      else none) = F) :
    URL_REGEX_match url = ⟨none, optA, Pa, Q, F⟩ := by
  unfold URL_REGEX_match
  rw [h1]
  dsimp only
  rw [h2]
  dsimp only
  rw [h3]
  dsimp only
  rw [h4]
  dsimp only
  rw [h5]

theorem authRegex_eq_of (a rest1 : Str) (optU : Option Str)
    (hostP rest2 port : Str)
    (h1 : (splitFirst '@' a = none ∧ optU = none ∧ rest1 = a) ∨
      (∃ u r, splitFirst '@' a = some (u, r) ∧ optU = some u ∧ rest1 = r))
    (h2 : (if rest1.take 1 = ['['] then
        (match splitLastKeep ']' rest1 with
         | some q => q
         | none => takeRun (fun c => !(c == ':')) rest1)
      else takeRun (fun c => !(c == ':')) rest1) = (hostP, rest2))
    (h3 : (if rest2.take 1 = [':'] then
        (takeRun (fun c => !(c == '\n')) (rest2.drop 1)).1
      else (takeRun (fun c => !(c == '\n')) rest2).1) = port) :
    AUTHORITY_REGEX_match a = ⟨optU, hostP, port⟩ := by
  unfold AUTHORITY_REGEX_match
  rcases h1 with ⟨hs, hU, hr⟩ | ⟨u, r, hs, hU, hr⟩
  · subst hU
    subst hr
    rw [hs]
    dsimp only
    rw [h2]
    dsimp only
    rw [h3]
  · subst hU
    subst hr
    rw [hs]
    dsimp only
    rw [h2]
    dsimp only
    rw [h3]

theorem mergeComponents_nil (url : Str) :
    mergeComponents [] url =
      ⟨(URL_REGEX_match url).scheme.getD [],
        (URL_REGEX_match url).authority.getD [],
        (URL_REGEX_match url).path, (URL_REGEX_match url).query,
        (URL_REGEX_match url).fragment,
        (AUTHORITY_REGEX_match
          ((URL_REGEX_match url).authority.getD [])).userinfo.getD [],
        (AUTHORITY_REGEX_match ((URL_REGEX_match url).authority.getD [])).host,
        some (AUTHORITY_REGEX_match
          ((URL_REGEX_match url).authority.getD [])).port⟩ := by
  unfold mergeComponents mergedOrEmpty merged
  dsimp only
  cases hg : (URL_REGEX_match url).scheme <;>
    cases hga : (URL_REGEX_match url).authority <;>
    rfl

theorem userinfo_chars_decide :
    ∀ c ∈ UNRESERVED_CHARACTERS ++ (SUB_DELIMS ++ [':']) ++ ['%'],
      (printableAscii c && !(c == '@') &&
        !(c == '/' || c == '?' || c == '#')) = true := by decide

theorem path_chars_decide :
    ∀ c ∈ UNRESERVED_CHARACTERS ++ (SUB_DELIMS ++ [':', '@', '/']) ++ ['%'],
      (printableAscii c && !(c == '?' || c == '#')) = true := by decide

theorem qf_chars_decide :
    ∀ c ∈ UNRESERVED_CHARACTERS ++ (SUB_DELIMS ++ ['/', '?']) ++ ['%'],
      (printableAscii c && !(c == '#') && !(c == '\n')) = true := by decide

theorem intToStr_ok {p : Int} :
    ∀ c ∈ intToStr p, printableAscii c = true ∧ ¬ c = '@' ∧ ¬ c = '[' ∧
      ¬ c = ']' ∧ ¬ c = ':' ∧ ¬ c = '\n' ∧ ¬ c = '/' ∧ ¬ c = '?' ∧
      ¬ c = '#' := by
  intro c hc
  rcases intToStr_chars c hc with hd | hd
  · have hb : 48 ≤ c.toNat ∧ c.toNat ≤ 57 := by
      simpa [isDigitCh] using hd
    refine ⟨printable_of_digit hd, ?_, ?_, ?_, ?_, ?_, ?_, ?_, ?_⟩ <;>
      (intro hcc; subst hcc; revert hb; decide)
  · subst hd
    refine ⟨by decide, by decide, by decide, by decide, by decide, by decide,
      by decide, by decide, by decide⟩

theorem host_chars_split {H : Str}
    (hHc : H.all (fun c => !(c == '@' || c == '[' || c == ']' ||
      c == '/' || c == '?' || c == '#')) = true) :
    ∀ c ∈ H, ¬ c = '@' ∧ ¬ c = '[' ∧ ¬ c = ']' ∧ ¬ c = '/' ∧ ¬ c = '?' ∧
      ¬ c = '#' := by
  intro c hc
  have := List.all_eq_true.mp hHc c hc
  simp only [Bool.not_eq_eq_eq_not, Bool.not_true, Bool.or_eq_false_iff,
    beq_eq_false_iff_ne, ne_eq] at this
  tauto

theorem portSerial_some (p : Int) : portSerial (some p) = ':' :: intToStr p :=
  rfl

theorem portSerial_none : portSerial none = [] := rfl

theorem portGroup_some (p : Int) : portGroup (some p) = intToStr p := rfl

theorem portGroup_none : portGroup none = [] := rfl

theorem querySerial_some (q : Str) : querySerial (some q) = '?' :: q := rfl

theorem querySerial_none : querySerial none = [] := rfl

theorem fragSerial_some (f : Str) : fragSerial (some f) = '#' :: f := rfl

theorem fragSerial_none : fragSerial none = [] := rfl

theorem authority_parts_all {U H : Str} {P : Option Int}
    (hUc : ∀ c ∈ U, c ∈ UNRESERVED_CHARACTERS ++ (SUB_DELIMS ++ [':']) ++ ['%'])
    (hHc : H.all (fun c => !(c == '@' || c == '[' || c == ']' ||
      c == '/' || c == '?' || c == '#')) = true)
    (hHp : H.all printableAscii = true) :
    ∀ c ∈ ((if U = [] then [] else U ++ ['@']) ++
      ((if H.contains ':' then '[' :: H ++ [']'] else H) ++ portSerial P)),
      printableAscii c = true ∧ (!(c == '/' || c == '?' || c == '#')) = true := by
  intro c hc
  simp only [List.mem_append] at hc
  rcases hc with hc | hc | hc
  · split_ifs at hc
    · simp at hc
    · rcases List.mem_append.mp hc with hc | hc
      · have := userinfo_chars_decide c (hUc c hc)
        simp only [Bool.and_eq_true] at this
        exact ⟨this.1.1, this.2⟩
      · have hcc : c = '@' := by simpa using hc
        subst hcc
        exact ⟨by decide, by decide⟩
  · split_ifs at hc
    · rcases List.mem_cons.mp hc with hc | hc
      · subst hc
        exact ⟨by decide, by decide⟩
      · rcases List.mem_append.mp hc with hc | hc
        · have h1 := List.all_eq_true.mp hHp c hc
          have h2 := host_chars_split hHc c hc
          refine ⟨h1, ?_⟩
          simp only [Bool.not_eq_eq_eq_not, Bool.not_true, Bool.or_eq_false_iff,
            beq_eq_false_iff_ne, ne_eq]
          tauto
        · have hcc : c = ']' := by simpa using hc
          subst hcc
          exact ⟨by decide, by decide⟩
    · have h1 := List.all_eq_true.mp hHp c hc
      have h2 := host_chars_split hHc c hc
      refine ⟨h1, ?_⟩
      simp only [Bool.not_eq_eq_eq_not, Bool.not_true, Bool.or_eq_false_iff,
        beq_eq_false_iff_ne, ne_eq]
      tauto
  · cases P with
    | some p =>
        rw [portSerial_some] at hc
        rcases List.mem_cons.mp hc with hc | hc
        · subst hc
          exact ⟨by decide, by decide⟩
        · have := intToStr_ok c hc
          refine ⟨this.1, ?_⟩
          simp only [Bool.not_eq_eq_eq_not, Bool.not_true, Bool.or_eq_false_iff,
            beq_eq_false_iff_ne, ne_eq]
          exact ⟨⟨this.2.2.2.2.2.2.1, this.2.2.2.2.2.2.2.1⟩,
            this.2.2.2.2.2.2.2.2⟩
    | none =>
        rw [portSerial_none] at hc
        simp at hc

theorem hostport_no_at {H : Str} {P : Option Int}
    (hHc : H.all (fun c => !(c == '@' || c == '[' || c == ']' ||
      c == '/' || c == '?' || c == '#')) = true) :
    '@' ∉ ((if H.contains ':' then '[' :: H ++ [']'] else H) ++
      portSerial P) := by
  intro hc
  rcases List.mem_append.mp hc with hc | hc
  · split_ifs at hc
    · rcases List.mem_cons.mp hc with hc | hc
      · exact absurd hc.symm (by decide)
      · rcases List.mem_append.mp hc with hc | hc
        · exact (host_chars_split hHc _ hc).1 rfl
        · have hcc : ('@' : Char) = ']' := List.mem_singleton.mp hc
          exact absurd hcc (by decide)
    · exact (host_chars_split hHc _ hc).1 rfl
  · cases P with
    | some p =>
        rw [portSerial_some] at hc
        rcases List.mem_cons.mp hc with hc | hc
        · exact absurd hc.symm (by decide)
        · exact (intToStr_ok _ hc).2.1 rfl
    | none =>
        rw [portSerial_none] at hc
        simp at hc

theorem portSerial_no_rb {P : Option Int} : ']' ∉ portSerial P := by
  intro hc
  cases P with
  | some p =>
      rw [portSerial_some] at hc
      rcases List.mem_cons.mp hc with hc | hc
      · exact absurd hc.symm (by decide)
      · exact (intToStr_ok _ hc).2.2.2.1 rfl
  | none =>
      rw [portSerial_none] at hc
      simp at hc


theorem if_bang_isEmpty {α : Type} (l : Str) (a b : α) :
    (if !l.isEmpty then a else b) = (if l = [] then b else a) := by
  cases l with
  | nil => simp
  | cons c r => simp

theorem take2_guard {Pa X : Str} (hPa : ¬ Pa.take 2 = ['/', '/'])
    (hX : X = [] ∨ (∃ t, X = '?' :: t) ∨ (∃ t, X = '#' :: t)) :
    ¬ (Pa ++ X).take 2 = ['/', '/'] := by
  cases Pa with
  | nil =>
      simp only [List.nil_append]
      rcases hX with hX | ⟨t, hX⟩ | ⟨t, hX⟩ <;> rw [hX] <;> intro hcon <;>
        simp at hcon
  | cons c r =>
      cases r with
      | nil =>
          simp only [List.cons_append, List.nil_append]
          intro hcon
          rcases hX with hX | ⟨t, hX⟩ | ⟨t, hX⟩ <;> rw [hX] at hcon <;>
            simp at hcon
      | cons c2 r2 =>
          simp only [List.cons_append]
          intro hcon
          apply hPa
          simp only [List.take_succ_cons, List.take_zero] at hcon ⊢
          exact hcon

theorem authority_nil_parts {U H : Str} {P : Option Int}
    (h : (if U = [] then [] else U ++ ['@']) ++
      ((if H.contains ':' then '[' :: H ++ [']'] else H) ++
        portSerial P) = []) :
    U = [] ∧ H = [] ∧ P = none := by
  rcases List.append_eq_nil.mp h with ⟨h1, h23⟩
  rcases List.append_eq_nil.mp h23 with ⟨h2, h3⟩
  refine ⟨?_, ?_, ?_⟩
  · by_cases hU : U = []
    · exact hU
    · rw [if_neg hU] at h1
      exact absurd (List.append_eq_nil.mp h1).2 (by simp)
  · split_ifs at h2 with hcol
    · exact absurd h2 (by simp)
    · exact h2
  · cases P with
    | some p => exact absurd h3 (by rw [portSerial_some]; simp)
    | none => rfl

theorem truthy_of_authority_ne {U H : Str} {P : Option Int}
    (hAne : (if U = [] then [] else U ++ ['@']) ++
      ((if H.contains ':' then '[' :: H ++ [']'] else H) ++
        portSerial P) ≠ []) :
    authorityTruthy U (if H.contains ':' then '[' :: H ++ [']'] else H)
      (some (portGroup P)) = true := by
  by_cases hU : U = []
  · by_cases hH : (if H.contains ':' then '[' :: H ++ [']'] else H) = []
    · cases P with
      | none =>
          exact absurd (by rw [if_pos hU, hH, portSerial_none]; rfl) hAne
      | some p =>
          unfold authorityTruthy
          simp only [Bool.or_eq_true]
          refine Or.inr ?_
          dsimp only
          rw [portGroup_some]
          cases hi : intToStr p with
          | nil => exact absurd hi (intToStr_ne_nil p)
          | cons a b => rfl
    · unfold authorityTruthy
      simp only [Bool.or_eq_true]
      refine Or.inl (Or.inr ?_)
      cases hc : (if H.contains ':' then '[' :: H ++ [']'] else H) with
      | nil => exact absurd hc hH
      | cons a b => rfl
  · unfold authorityTruthy
    simp only [Bool.or_eq_true]
    refine Or.inl (Or.inl ?_)
    cases hc : U with
    | nil => exact absurd hc hU
    | cons a b => rfl


theorem pathStep_roundtrip_truthy {m : MergedComponents}
    (ht : authorityTruthy m.userinfo m.host m.port = true)
    (hsh : m.path = [] ∨ m.path.headI = '/')
    (hnp : normalize_path m.path = m.path) : pathStep m = .ok m.path := by
  unfold pathStep
  rw [if_pos ht]
  have hval : validate_absolute_path m.path = .ok () := by
    unfold validate_absolute_path
    rw [if_neg ?_]
    rcases hsh with h | h
    · simp [h]
    · simp [h]
  rw [hval, hnp]

theorem normalize_port_roundtrip {S : Str} {P : Option Int}
    (hport : ∀ p, P = some p → defaultPort S ≠ some p) :
    normalize_port (some (portGroup P)) S = .ok P := by
  cases P with
  | none => rfl
  | some p =>
      rw [portGroup_some]
      unfold normalize_port
      dsimp only
      rw [if_neg (intToStr_ne_nil p), pyInt_intToStr p]
      dsimp only
      rw [if_neg (hport p rfl)]

theorem roundtrip_finish {idna : Str → Option Str} {m : MergedComponents}
    {S U H Pa : Str} {P : Option Int} {Q F : Option Str}
    (hmS : m.scheme = S) (hmU : m.userinfo = U) (hmQ : m.query = Q)
    (hmF : m.fragment = F)
    (hSlow : pyLower S = S)
    (hU : quote U (SUB_DELIMS ++ [':']) = U)
    (henc : encode_host idna m.host = .ok H)
    (hnp : normalize_port m.port m.scheme = .ok P)
    (hpa : pathStep m = .ok Pa)
    (hP : quote Pa (SUB_DELIMS ++ [':', '@', '/']) = Pa)
    (hQq : ∀ q, Q = some q → quote q (SUB_DELIMS ++ ['/', '?']) = q)
    (hFf : ∀ f, F = some f → quote f (SUB_DELIMS ++ ['/', '?']) = f) :
    normalizeComponents idna m = .ok ⟨S, U, H, P, Pa, Q, F⟩ := by
  rw [normalizeComponents_build henc hnp hpa]
  rw [hmS, hmU, hmQ, hmF, hSlow, hU, hP]
  have eQ : Q.map (fun q => quote q (SUB_DELIMS ++ ['/', '?'])) = Q := by
    cases Q with
    | none => rfl
    | some q => rw [Option.map_some', hQq q rfl]
  have eF : F.map (fun f => quote f (SUB_DELIMS ++ ['/', '?'])) = F := by
    cases F with
    | none => rfl
    | some f => rw [Option.map_some', hFf f rfl]
  rw [eQ, eF]

theorem pathStep_falsy {s a pa : Str} {q f : Option Str} :
    pathStep ⟨s, a, pa, q, f, [], [], some []⟩ = .ok pa := by
  unfold pathStep
  dsimp only
  rw [if_neg (show ¬ authorityTruthy [] [] (some []) = true from by decide)]

theorem roundtrip_core (idna : Str → Option Str) (R : ParseResult)
    (hS : R.scheme = [] ∨ (isAlphaCh R.scheme.headI = true ∧
      R.scheme.all isSchemeTail = true))
    (hSlow : pyLower R.scheme = R.scheme)
    (hU : quote R.userinfo (SUB_DELIMS ++ [':']) = R.userinfo)
    (hUc : ∀ c ∈ R.userinfo,
      c ∈ UNRESERVED_CHARACTERS ++ (SUB_DELIMS ++ [':']) ++ ['%'])
    (hHp : R.host.all printableAscii = true)
    (hHc : R.host.all (fun c => !(c == '@' || c == '[' || c == ']' ||
      c == '/' || c == '?' || c == '#')) = true)
    (henc : encode_host idna (if R.host.contains ':' then
      '[' :: R.host ++ [']'] else R.host) = .ok R.host)
    (hP : quote R.path (SUB_DELIMS ++ [':', '@', '/']) = R.path)
    (hPc : ∀ c ∈ R.path,
      c ∈ UNRESERVED_CHARACTERS ++ (SUB_DELIMS ++ [':', '@', '/']) ++ ['%'])
    (hPauth : R.authority ≠ [] →
      (R.path = [] ∨ R.path.headI = '/') ∧ normalize_path R.path = R.path)
    (hQ : ∀ q, R.query = some q → quote q (SUB_DELIMS ++ ['/', '?']) = q ∧
      ∀ c ∈ q, c ∈ UNRESERVED_CHARACTERS ++ (SUB_DELIMS ++ ['/', '?']) ++ ['%'])
    (hF : ∀ f, R.fragment = some f → quote f (SUB_DELIMS ++ ['/', '?']) = f ∧
      ∀ c ∈ f, c ∈ UNRESERVED_CHARACTERS ++ (SUB_DELIMS ++ ['/', '?']) ++ ['%'])
    (hport : ∀ p, R.port = some p → defaultPort R.scheme ≠ some p)
    (hlen : (ParseResult.toStr R).length ≤ MAX_URL_LENGTH)
    (hslash : R.authority = [] → R.path.take 2 ≠ ['/', '/'])
    (hnos : R.scheme = [] → R.authority = [] →
      splitScheme (ParseResult.toStr R) = none) :
    urlparse idna (ParseResult.toStr R) [] = .ok R := by
  obtain ⟨S, U, H, P, Pa, Q, F⟩ := R
  dsimp only at hS hSlow hU hUc hHp hHc henc hP hPc hPauth hQ hF
  dsimp only at hport hlen hslash hnos
  have hAdef : ParseResult.authority ⟨S, U, H, P, Pa, Q, F⟩ =
      (if U = [] then [] else U ++ ['@']) ++
      ((if H.contains ':' then '[' :: H ++ [']'] else H) ++ portSerial P) := by
    unfold ParseResult.authority
    dsimp only
    rw [if_bang_isEmpty, List.append_assoc]
    cases P with
    | some p => rfl
    | none => rfl
  rw [hAdef] at hPauth hslash hnos
  have hTdef : ParseResult.toStr ⟨S, U, H, P, Pa, Q, F⟩ =
      (if S = [] then [] else S ++ [':']) ++
      ((if ((if U = [] then [] else U ++ ['@']) ++
          ((if H.contains ':' then '[' :: H ++ [']'] else H) ++
            portSerial P)) = []
        then []
        else '/' :: '/' :: ((if U = [] then [] else U ++ ['@']) ++
          ((if H.contains ':' then '[' :: H ++ [']'] else H) ++
            portSerial P))) ++
        (Pa ++ (querySerial Q ++ fragSerial F))) := by
    unfold ParseResult.toStr
    dsimp only
    rw [hAdef, if_bang_isEmpty, if_bang_isEmpty]
    simp only [List.append_assoc]
    cases Q with
    | some q => cases F with
      | some f => rfl
      | none => rfl
    | none => cases F with
      | some f => rfl
      | none => rfl
  -- character packs
  have hSall : S.all isSchemeTail = true := by
    rcases hS with h | h
    · rw [h]; rfl
    · exact h.2
  have hUall : ∀ c ∈ U, printableAscii c = true ∧ (!(c == '@')) = true ∧
      (!(c == '/' || c == '?' || c == '#')) = true := by
    intro c hc
    have := userinfo_chars_decide c (hUc c hc)
    simp only [Bool.and_eq_true] at this
    exact ⟨this.1.1, this.1.2, this.2⟩
  have hPaall : ∀ c ∈ Pa, printableAscii c = true ∧
      (!(c == '?' || c == '#')) = true := by
    intro c hc
    have := path_chars_decide c (hPc c hc)
    simp only [Bool.and_eq_true] at this
    exact this
  have hQall : ∀ q, Q = some q → ∀ c ∈ q, printableAscii c = true ∧
      (!(c == '#')) = true ∧ (!(c == '\n')) = true := by
    intro q hq c hc
    have := qf_chars_decide c ((hQ q hq).2 c hc)
    simp only [Bool.and_eq_true] at this
    exact ⟨this.1.1, this.1.2, this.2⟩
  have hFall : ∀ f, F = some f → ∀ c ∈ f, printableAscii c = true ∧
      (!(c == '#')) = true ∧ (!(c == '\n')) = true := by
    intro f hf c hc
    have := qf_chars_decide c ((hF f hf).2 c hc)
    simp only [Bool.and_eq_true] at this
    exact ⟨this.1.1, this.1.2, this.2⟩
  have hApack := authority_parts_all (P := P) hUc hHc hHp
  -- printability of the serialized string
  have hTprint : ∀ c ∈ ParseResult.toStr ⟨S, U, H, P, Pa, Q, F⟩,
      printableAscii c = true := by
    intro c hc
    rw [hTdef] at hc
    rcases List.mem_append.mp hc with hc | hc
    · split_ifs at hc
      · simp at hc
      · rcases List.mem_append.mp hc with hc | hc
        · exact schemeTail_printable (List.all_eq_true.mp hSall c hc)
        · have hcc : c = ':' := List.mem_singleton.mp hc
          rw [hcc]; decide
    · rcases List.mem_append.mp hc with hc | hc
      · by_cases hAz : ((if U = [] then [] else U ++ ['@']) ++
            ((if H.contains ':' then '[' :: H ++ [']'] else H) ++
              portSerial P)) = []
        · rw [if_pos hAz] at hc
          simp at hc
        · rw [if_neg hAz] at hc
          rcases List.mem_cons.mp hc with hc | hc
          · rw [hc]; decide
          · rcases List.mem_cons.mp hc with hc | hc
            · rw [hc]; decide
            · exact (hApack c hc).1
      · rcases List.mem_append.mp hc with hc | hc
        · exact (hPaall c hc).1
        · rcases List.mem_append.mp hc with hc | hc
          · cases Q with
            | some q =>
                rw [querySerial_some] at hc
                rcases List.mem_cons.mp hc with hc | hc
                · rw [hc]; decide
                · exact (hQall q rfl c hc).1
            | none =>
                rw [querySerial_none] at hc
                simp at hc
          · cases F with
            | some f =>
                rw [fragSerial_some] at hc
                rcases List.mem_cons.mp hc with hc | hc
                · rw [hc]; decide
                · exact (hFall f rfl c hc).1
            | none =>
                rw [fragSerial_none] at hc
                simp at hc
  have hprint : (ParseResult.toStr ⟨S, U, H, P, Pa, Q, F⟩).any
      asciiNonPrintable = false := by
    by_contra hx
    have hx2 : (ParseResult.toStr ⟨S, U, H, P, Pa, Q, F⟩).any
        asciiNonPrintable = true := by
      cases hb : (ParseResult.toStr ⟨S, U, H, P, Pa, Q, F⟩).any asciiNonPrintable
      · exact absurd hb hx
      · rfl
    obtain ⟨c, hcm, hcp⟩ := List.any_eq_true.mp hx2
    rw [not_nonprintable (hTprint c hcm)] at hcp
    exact Bool.noConfusion hcp
  -- QF shape
  have hQF : (querySerial Q ++ fragSerial F : Str) = [] ∨
      (∃ t, (querySerial Q ++ fragSerial F : Str) = '?' :: t) ∨
      (∃ t, (querySerial Q ++ fragSerial F : Str) = '#' :: t) := by
    cases Q with
    | some q => exact Or.inr (Or.inl ⟨_, rfl⟩)
    | none =>
        cases F with
        | some f => exact Or.inr (Or.inr ⟨_, rfl⟩)
        | none => exact Or.inl rfl
  -- path run
  have hPaAllP : Pa.all (fun c => !(c == '?' || c == '#')) = true := by
    rw [List.all_eq_true]
    intro c hc
    exact (hPaall c hc).2
  have h3g : takeRun (fun c => !(c == '?' || c == '#'))
      (Pa ++ (querySerial Q ++ fragSerial F)) =
      (Pa, querySerial Q ++ fragSerial F) := by
    refine takeRun_takes hPaAllP ?_
    rcases hQF with hX | ⟨t, hX⟩ | ⟨t, hX⟩
    · exact Or.inl hX
    · rw [hX]
      exact Or.inr (show (!(('?' : Char) == '?' || '?' == '#')) = false
        from by decide)
    · rw [hX]
      exact Or.inr (show (!(('#' : Char) == '?' || '#' == '#')) = false
        from by decide)
  -- query group
  have h4g : (if ((querySerial Q ++ fragSerial F : Str)).take 1 = ['?'] then
      ((some (takeRun (fun c => !(c == '#'))
          ((querySerial Q ++ fragSerial F : Str).drop 1)).1 : Option Str),
        (takeRun (fun c => !(c == '#'))
          ((querySerial Q ++ fragSerial F : Str).drop 1)).2)
    else (none, (querySerial Q ++ fragSerial F : Str))) =
      (Q, fragSerial F) := by
    cases Q with
    | some q =>
        rw [querySerial_some]
        rw [if_pos (show ((('?' :: q : Str) ++ fragSerial F).take 1) = ['?']
          from rfl)]
        rw [show ((('?' :: q : Str) ++ fragSerial F).drop 1 : Str) =
          q ++ fragSerial F from rfl]
        have hqall : q.all (fun c => !(c == '#')) = true := by
          rw [List.all_eq_true]
          intro c hc
          exact (hQall q rfl c hc).2.1
        have hstopF : (fragSerial F : Str) = [] ∨ (fun c : Char => !(c == '#'))
            ((fragSerial F : Str)).headI = false := by
          cases F with
          | some f =>
              rw [fragSerial_some]
              exact Or.inr (show (!(('#' : Char) == '#')) = false
                from by decide)
          | none => exact Or.inl rfl
        rw [takeRun_takes hqall hstopF]
    | none =>
        rw [querySerial_none, List.nil_append]
        cases F with
        | some f =>
            rw [fragSerial_some]
            have hng : ¬ (('#' :: f : Str).take 1 = ['?']) :=
              show ¬ ((['#'] : Str) = ['?']) from by decide
            rw [if_neg hng]
        | none =>
            rw [fragSerial_none]
            rw [if_neg (show ¬ (([] : Str).take 1 = ['?']) from by decide)]
  -- fragment group
  have h5g : (if ((fragSerial F : Str)).take 1 = ['#'] then
      (some (takeRun (fun c => !(c == '\n'))
        ((fragSerial F : Str).drop 1)).1 : Option Str)
    else none) = F := by
    cases F with
    | some f =>
        rw [fragSerial_some]
        rw [if_pos (show (('#' :: f : Str).take 1) = ['#'] from rfl)]
        rw [show (('#' :: f : Str).drop 1 : Str) = f from rfl]
        have hfall : f.all (fun c => !(c == '\n')) = true := by
          rw [List.all_eq_true]
          intro c hc
          exact (hFall f rfl c hc).2.2
        have htr := takeRun_takes (b := []) hfall (Or.inl rfl)
        rw [List.append_nil] at htr
        rw [htr]
    | none =>
        rw [fragSerial_none]
        rw [if_neg (show ¬ (([] : Str).take 1 = ['#']) from by decide)]
  -- enter the parse
  rw [urlparse_reduces hlen hprint (by decide),
    show preprocessKwargs ([] : Kw) = [] from rfl, mergeComponents_nil]
  by_cases hA0 : ((if U = [] then [] else U ++ ['@']) ++
      ((if H.contains ':' then '[' :: H ++ [']'] else H) ++
        portSerial P)) = []
  · -- empty authority
    obtain ⟨hU0, hH0, hP0⟩ := authority_nil_parts hA0
    subst hU0
    subst hH0
    subst hP0
    have hT2 : ParseResult.toStr ⟨S, [], [], none, Pa, Q, F⟩ =
        (if S = [] then [] else S ++ [':']) ++
        (Pa ++ (querySerial Q ++ fragSerial F)) := by
      rw [hTdef, if_pos hA0, List.nil_append]
    have h2g : (if ((Pa ++ (querySerial Q ++ fragSerial F)) : Str).take 2 =
          ['/', '/'] then
        ((some (takeRun (fun c => !(c == '/' || c == '?' || c == '#'))
            (((Pa ++ (querySerial Q ++ fragSerial F)) : Str).drop 2)).1
          : Option Str),
          (takeRun (fun c => !(c == '/' || c == '?' || c == '#'))
            (((Pa ++ (querySerial Q ++ fragSerial F)) : Str).drop 2)).2)
      else (none, Pa ++ (querySerial Q ++ fragSerial F))) =
        ((none : Option Str), Pa ++ (querySerial Q ++ fragSerial F)) := by
      rw [if_neg (take2_guard (hslash hA0) hQF)]
    by_cases hSnil : S = []
    · subst hSnil
      have hT3 : ParseResult.toStr ⟨[], [], [], none, Pa, Q, F⟩ =
          Pa ++ (querySerial Q ++ fragSerial F) := by
        rw [hT2, if_pos (rfl : ([] : Str) = []), List.nil_append]
      have h1 := hnos rfl hA0
      rw [hT3] at h1
      rw [hT3]
      rw [URL_REGEX_match_eq_none h1 h2g h3g h4g h5g]
      simp only [Option.getD_some, Option.getD_none]
      rw [show AUTHORITY_REGEX_match [] = ⟨none, [], []⟩ from rfl]
      simp only [Option.getD_some, Option.getD_none]
      exact roundtrip_finish rfl rfl rfl rfl hSlow hU rfl rfl pathStep_falsy
        hP (fun q hq => (hQ q hq).1) (fun f hf => (hF f hf).1)
    · have hT3 : ParseResult.toStr ⟨S, [], [], none, Pa, Q, F⟩ =
          (S ++ [':']) ++ (Pa ++ (querySerial Q ++ fragSerial F)) := by
        rw [hT2, if_neg hSnil]
      have h1 : splitScheme ((S ++ [':']) ++
          (Pa ++ (querySerial Q ++ fragSerial F))) =
          some (S, Pa ++ (querySerial Q ++ fragSerial F)) := by
        rw [List.append_assoc]
        exact splitScheme_build hSnil (hS.resolve_left hSnil).1 hSall
      rw [hT3]
      rw [URL_REGEX_match_eq_some h1 h2g h3g h4g h5g]
      simp only [Option.getD_some, Option.getD_none]
      rw [show AUTHORITY_REGEX_match [] = ⟨none, [], []⟩ from rfl]
      simp only [Option.getD_some, Option.getD_none]
      exact roundtrip_finish rfl rfl rfl rfl hSlow hU rfl rfl pathStep_falsy
        hP (fun q hq => (hQ q hq).1) (fun f hf => (hF f hf).1)
  · -- nonempty authority
    have hPsh := hPauth hA0
    have hAallP : ((if U = [] then [] else U ++ ['@']) ++
        ((if H.contains ':' then '[' :: H ++ [']'] else H) ++
          portSerial P)).all
        (fun c => !(c == '/' || c == '?' || c == '#')) = true := by
      rw [List.all_eq_true]
      intro c hc
      exact (hApack c hc).2
    have hstopA : (Pa ++ (querySerial Q ++ fragSerial F) : Str) = [] ∨
        (fun c : Char => !(c == '/' || c == '?' || c == '#'))
          ((Pa ++ (querySerial Q ++ fragSerial F) : Str)).headI = false := by
      by_cases hPanil : Pa = []
      · rw [hPanil, List.nil_append]
        rcases hQF with hX | ⟨t, hX⟩ | ⟨t, hX⟩
        · exact Or.inl hX
        · rw [hX]
          exact Or.inr (show (!(('?' : Char) == '/' || '?' == '?' ||
            '?' == '#')) = false from by decide)
        · rw [hX]
          exact Or.inr (show (!(('#' : Char) == '/' || '#' == '?' ||
            '#' == '#')) = false from by decide)
      · refine Or.inr ?_
        rw [headI_append_left hPanil]
        rcases hPsh.1 with h | h
        · exact absurd h hPanil
        · rw [h]
          exact (show (!(('/' : Char) == '/' || '/' == '?' || '/' == '#')) =
            false from by decide)
    have htrA : takeRun (fun c => !(c == '/' || c == '?' || c == '#'))
        (((if U = [] then [] else U ++ ['@']) ++
          ((if H.contains ':' then '[' :: H ++ [']'] else H) ++
            portSerial P)) ++
          (Pa ++ (querySerial Q ++ fragSerial F))) =
        (((if U = [] then [] else U ++ ['@']) ++
          ((if H.contains ':' then '[' :: H ++ [']'] else H) ++
            portSerial P)),
          Pa ++ (querySerial Q ++ fragSerial F)) :=
      takeRun_takes hAallP hstopA
    have h2g : (if ((('/' :: '/' :: ((if U = [] then [] else U ++ ['@']) ++
          ((if H.contains ':' then '[' :: H ++ [']'] else H) ++
            portSerial P))) ++
          (Pa ++ (querySerial Q ++ fragSerial F)) : Str)).take 2 =
          ['/', '/'] then
        ((some (takeRun (fun c => !(c == '/' || c == '?' || c == '#'))
            (((('/' :: '/' :: ((if U = [] then [] else U ++ ['@']) ++
              ((if H.contains ':' then '[' :: H ++ [']'] else H) ++
                portSerial P))) ++
              (Pa ++ (querySerial Q ++ fragSerial F)) : Str)).drop 2)).1
          : Option Str),
          (takeRun (fun c => !(c == '/' || c == '?' || c == '#'))
            (((('/' :: '/' :: ((if U = [] then [] else U ++ ['@']) ++
              ((if H.contains ':' then '[' :: H ++ [']'] else H) ++
                portSerial P))) ++
              (Pa ++ (querySerial Q ++ fragSerial F)) : Str)).drop 2)).2)
      else (none, ('/' :: '/' :: ((if U = [] then [] else U ++ ['@']) ++
          ((if H.contains ':' then '[' :: H ++ [']'] else H) ++
            portSerial P))) ++
          (Pa ++ (querySerial Q ++ fragSerial F)))) =
        ((some ((if U = [] then [] else U ++ ['@']) ++
          ((if H.contains ':' then '[' :: H ++ [']'] else H) ++
            portSerial P)) : Option Str),
          Pa ++ (querySerial Q ++ fragSerial F)) := by
      rw [if_pos (show ((('/' :: '/' :: ((if U = [] then [] else U ++ ['@']) ++
          ((if H.contains ':' then '[' :: H ++ [']'] else H) ++
            portSerial P))) ++
          (Pa ++ (querySerial Q ++ fragSerial F)) : Str)).take 2 = ['/', '/']
        from rfl)]
      rw [show (((('/' :: '/' :: ((if U = [] then [] else U ++ ['@']) ++
          ((if H.contains ':' then '[' :: H ++ [']'] else H) ++
            portSerial P))) ++
          (Pa ++ (querySerial Q ++ fragSerial F)) : Str)).drop 2 : Str) =
        ((if U = [] then [] else U ++ ['@']) ++
          ((if H.contains ':' then '[' :: H ++ [']'] else H) ++
            portSerial P)) ++
          (Pa ++ (querySerial Q ++ fragSerial F)) from rfl]
      rw [htrA]
    -- authority sub-regex
    have hUat : '@' ∉ U := by
      intro hc
      have := (hUall '@' hc).2.1
      simp at this
    have hauthm : AUTHORITY_REGEX_match
        ((if U = [] then [] else U ++ ['@']) ++
          ((if H.contains ':' then '[' :: H ++ [']'] else H) ++
            portSerial P)) =
        ⟨(if U = [] then none else some U),
          (if H.contains ':' then '[' :: H ++ [']'] else H),
          portGroup P⟩ := by
      refine authRegex_eq_of _
        ((if H.contains ':' then '[' :: H ++ [']'] else H) ++ portSerial P)
        _ _ (portSerial P) _ ?_ ?_ ?_
      · by_cases hUnil : U = []
        · refine Or.inl ⟨?_, by rw [if_pos hUnil], ?_⟩
          · rw [if_pos hUnil, List.nil_append]
            exact splitFirst_none (hostport_no_at hHc)
          · rw [if_pos hUnil, List.nil_append]
        · refine Or.inr ⟨U, ((if H.contains ':' then '[' :: H ++ [']'] else H) ++
            portSerial P), ?_, by rw [if_neg hUnil], rfl⟩
          rw [if_neg hUnil, List.append_assoc]
          exact splitFirst_append hUat
      · by_cases hcol : H.contains ':' = true
        · rw [if_pos hcol]
          have hsk : splitLastKeep ']'
              (('[' :: H ++ [']']) ++ portSerial P) =
              some ('[' :: H ++ [']'], portSerial P) := by
            rw [show ((('[' :: H ++ [']']) ++ portSerial P) : Str) =
              ('[' :: H) ++ (']' :: portSerial P) by
              simp [List.append_assoc]]
            exact splitLastKeep_eq portSerial_no_rb
          rw [if_pos (show ((('[' :: H ++ [']']) ++ portSerial P :
              Str)).take 1 = ['['] from rfl)]
          rw [hsk]
        · rw [if_neg hcol]
          have hnc : ':' ∉ H := by
            intro hc
            have : H.contains ':' = true := by
              rw [List.contains_eq_any_beq]
              rw [List.any_eq_true]
              exact ⟨':', hc, by simp⟩
            exact absurd this hcol
          have hHallC : H.all (fun c => !(c == ':')) = true := by
            rw [List.all_eq_true]
            intro c hc
            simp only [Bool.not_eq_eq_eq_not, Bool.not_true,
              beq_eq_false_iff_ne, ne_eq]
            intro hcc
            rw [hcc] at hc
            exact hnc hc
          have hstopP : (portSerial P : Str) = [] ∨
              (fun c : Char => !(c == ':'))
                ((portSerial P : Str)).headI = false := by
            cases P with
            | some p =>
                rw [portSerial_some]
                exact Or.inr (show (!((':' : Char) == ':')) = false
                  from by decide)
            | none => exact Or.inl rfl
          have hguard : ¬ ((H ++ portSerial P : Str)).take 1 = ['['] := by
            cases hHc2 : H with
            | nil =>
                rw [List.nil_append]
                cases P with
                | some p =>
                    rw [portSerial_some]
                    exact (show ¬ ((':' :: intToStr p : Str).take 1 = ['['])
                      from by
                        rw [show ((':' :: intToStr p : Str).take 1) = [':']
                          from rfl]
                        decide)
                | none =>
                    rw [portSerial_none]
                    exact (show ¬ (([] : Str).take 1 = ['[']) from by decide)
            | cons c r =>
                intro hcon
                have hcc : c = '[' := by
                  simpa using hcon
                have hmem : '[' ∈ H := by
                  rw [hHc2, hcc]
                  simp
                exact (host_chars_split hHc '[' hmem).2.1 rfl
          rw [if_neg hguard]
          exact takeRun_takes hHallC hstopP
      · cases P with
        | some p =>
            rw [portSerial_some, portGroup_some]
            rw [if_pos (show ((':' :: intToStr p : Str)).take 1 = [':']
              from rfl)]
            rw [show ((':' :: intToStr p : Str)).drop 1 = intToStr p from rfl]
            have hpall : (intToStr p).all (fun c => !(c == '\n')) = true := by
              rw [List.all_eq_true]
              intro c hc
              simp only [Bool.not_eq_eq_eq_not, Bool.not_true,
                beq_eq_false_iff_ne, ne_eq]
              exact (intToStr_ok c hc).2.2.2.2.2.1
            have htr := takeRun_takes (b := []) hpall (Or.inl rfl)
            rw [List.append_nil] at htr
            rw [htr]
        | none =>
            rw [portSerial_none, portGroup_none]
            rw [if_neg (show ¬ (([] : Str).take 1 = [':']) from by decide)]
            rfl
    have hmu : ((if U = [] then none else some U) : Option Str).getD [] =
        U := by
      by_cases hUnil : U = []
      · rw [if_pos hUnil, hUnil]
        rfl
      · rw [if_neg hUnil]
        rfl
    have hT2 : ParseResult.toStr ⟨S, U, H, P, Pa, Q, F⟩ =
        (if S = [] then [] else S ++ [':']) ++
        (('/' :: '/' :: ((if U = [] then [] else U ++ ['@']) ++
          ((if H.contains ':' then '[' :: H ++ [']'] else H) ++
            portSerial P))) ++
          (Pa ++ (querySerial Q ++ fragSerial F))) := by
      rw [hTdef, if_neg hA0]
    by_cases hSnil : S = []
    · subst hSnil
      have hT3 : ParseResult.toStr ⟨[], U, H, P, Pa, Q, F⟩ =
          ('/' :: '/' :: ((if U = [] then [] else U ++ ['@']) ++
            ((if H.contains ':' then '[' :: H ++ [']'] else H) ++
              portSerial P))) ++
          (Pa ++ (querySerial Q ++ fragSerial F)) := by
        rw [hT2, if_pos (rfl : ([] : Str) = []), List.nil_append]
      have h1 : splitScheme
          (('/' :: '/' :: ((if U = [] then [] else U ++ ['@']) ++
            ((if H.contains ':' then '[' :: H ++ [']'] else H) ++
              portSerial P))) ++
          (Pa ++ (querySerial Q ++ fragSerial F))) = none := by
        rw [List.cons_append, List.cons_append]
        rw [splitScheme]
        rw [if_neg (show ¬ isAlphaCh '/' = true from by decide)]
      rw [hT3]
      rw [URL_REGEX_match_eq_none h1 h2g h3g h4g h5g]
      simp only [Option.getD_some, Option.getD_none]
      rw [hauthm]
      dsimp only
      rw [hmu]
      refine roundtrip_finish rfl rfl rfl rfl hSlow hU henc
        (normalize_port_roundtrip hport) ?_ hP
        (fun q hq => (hQ q hq).1) (fun f hf => (hF f hf).1)
      exact pathStep_roundtrip_truthy (truthy_of_authority_ne hA0)
        hPsh.1 hPsh.2
    · have hT3 : ParseResult.toStr ⟨S, U, H, P, Pa, Q, F⟩ =
          (S ++ [':']) ++
          (('/' :: '/' :: ((if U = [] then [] else U ++ ['@']) ++
            ((if H.contains ':' then '[' :: H ++ [']'] else H) ++
              portSerial P))) ++
          (Pa ++ (querySerial Q ++ fragSerial F))) := by
        rw [hT2, if_neg hSnil]
      have h1 : splitScheme ((S ++ [':']) ++
          (('/' :: '/' :: ((if U = [] then [] else U ++ ['@']) ++
            ((if H.contains ':' then '[' :: H ++ [']'] else H) ++
              portSerial P))) ++
          (Pa ++ (querySerial Q ++ fragSerial F)))) =
          some (S,
            ('/' :: '/' :: ((if U = [] then [] else U ++ ['@']) ++
              ((if H.contains ':' then '[' :: H ++ [']'] else H) ++
                portSerial P))) ++
            (Pa ++ (querySerial Q ++ fragSerial F))) := by
        rw [List.append_assoc]
        exact splitScheme_build hSnil (hS.resolve_left hSnil).1 hSall
      rw [hT3]
      rw [URL_REGEX_match_eq_some h1 h2g h3g h4g h5g]
      simp only [Option.getD_some, Option.getD_none]
      rw [hauthm]
      dsimp only
      rw [hmu]
      refine roundtrip_finish rfl rfl rfl rfl hSlow hU henc
        (normalize_port_roundtrip hport) ?_ hP
        (fun q hq => (hQ q hq).1) (fun f hf => (hF f hf).1)
      exact pathStep_roundtrip_truthy (truthy_of_authority_ne hA0)
        hPsh.1 hPsh.2


theorem authorityTruthy_false {u h : Str} {p : Option Str}
    (hf : authorityTruthy u h p = false) :
    u = [] ∧ h = [] ∧ (p = none ∨ p = some []) := by
  unfold authorityTruthy at hf
  simp only [Bool.or_eq_false_iff, Bool.not_eq_false'] at hf
  obtain ⟨⟨h1, h2⟩, h3⟩ := hf
  refine ⟨?_, ?_, ?_⟩
  · cases u with
    | nil => rfl
    | cons c r => exact absurd h1 (by simp)
  · cases h with
    | nil => rfl
    | cons c r => exact absurd h2 (by simp)
  · cases p with
    | none => exact Or.inl rfl
    | some s =>
        cases s with
        | nil => exact Or.inr rfl
        | cons c r => exact absurd h3 (by simp)

theorem scheme_shape {kwargs : Kw} {url : Str}
    (hval : validateKwargs (preprocessKwargs kwargs) = .ok ()) :
    pyLower (mergeComponents (preprocessKwargs kwargs) url).scheme = [] ∨
      (isAlphaCh (pyLower
        (mergeComponents (preprocessKwargs kwargs) url).scheme).headI = true ∧
      (pyLower (mergeComponents (preprocessKwargs kwargs) url).scheme).all
        isSchemeTail = true) := by
  have hcases := mergedOrEmpty_cases (preprocessKwargs kwargs) "scheme"
    (URL_REGEX_match url).scheme
  have hsch : (mergeComponents (preprocessKwargs kwargs) url).scheme =
      mergedOrEmpty (preprocessKwargs kwargs) "scheme"
        (URL_REGEX_match url).scheme := rfl
  rw [hsch]
  rcases hcases with hc | ⟨v, hfind, hv⟩ | ⟨_, v, hdflt, hv⟩
  · rw [hc]
    exact Or.inl rfl
  · rw [hv]
    have hre := (validate_ok_values _ hval _ _ (dictFind_mem hfind)).2.2
    have htail := scheme_component_chars hre
    by_cases hvnil : v = []
    · rw [hvnil]
      exact Or.inl rfl
    · obtain ⟨c, t, rfl⟩ := List.exists_cons_of_ne_nil hvnil
      have halpha := scheme_component_alpha hre (by simp)
      right
      refine ⟨?_, pyLower_schemeTail htail⟩
      have := pyLower_head_alpha (t := t) (by simpa using halpha)
      exact this.2
  · rw [hv]
    obtain ⟨hne, htail⟩ := urlScheme_chars hdflt
    have halpha := urlScheme_alpha hdflt
    obtain ⟨c, t, rfl⟩ := List.exists_cons_of_ne_nil hne
    right
    refine ⟨?_, pyLower_schemeTail htail⟩
    have := pyLower_head_alpha (t := t) (by simpa using halpha)
    exact this.2

/-- **C1, counterexample**: round-trip stability fails: parsing
`"http://a^b/"` stores the host `"a%5Eb"` (upper-case escape produced by
`percent_encode`), but re-parsing the canonical string `"http://a%5Eb/"`
lower-cases the host before quoting, yielding host `"a%5eb"`, so the
re-parsed `ParseResult` differs in the host field. -/
theorem c1_counterexample :
    urlparse (fun _ => none) "http://a^b/".toList [] =
      .ok ⟨"http".toList, [], "a%5Eb".toList, none, ['/'], none, none⟩ ∧
    ParseResult.toStr ⟨"http".toList, [], "a%5Eb".toList, none, ['/'], none,
      none⟩ = "http://a%5Eb/".toList ∧
    urlparse (fun _ => none) "http://a%5Eb/".toList [] =
      .ok ⟨"http".toList, [], "a%5eb".toList, none, ['/'], none, none⟩ ∧
    ("a%5eb".toList ≠ "a%5Eb".toList) :=
  ⟨by decide, by decide, by decide, by decide⟩

/-- **C1, amended**: round-trip stability holds for every successfully
produced `ParseResult` under the side conditions that actually fail in the
counterexamples: the canonical string is within the length bound, re-encoding
the serialized host form is a fixpoint, the host contains no
authority-delimiter characters, the port is not the default port of the
stored (lower-cased) scheme, an empty authority is not followed by a path
beginning `"//"`, and an absent scheme is not mimicked by a scheme-like
prefix of the serialized remainder.  The abstract IDNA encoder is assumed to
emit printable ASCII, as `.decode("ascii")` enforces in the source. -/
theorem c1_amended :
    ∀ (idna : Str → Option Str) (url : Str) (kwargs : Kw) (R : ParseResult),
      (∀ s t, idna s = some t → t.all printableAscii = true) →
      urlparse idna url kwargs = .ok R →
      (ParseResult.toStr R).length ≤ MAX_URL_LENGTH →
      encode_host idna (if R.host.contains ':' then '[' :: R.host ++ [']']
        else R.host) = .ok R.host →
      R.host.all (fun c => !(c == '@' || c == '[' || c == ']' || c == '/' ||
        c == '?' || c == '#')) = true →
      (∀ p, R.port = some p → defaultPort R.scheme ≠ some p) →
      (R.authority = [] → R.path.take 2 ≠ ['/', '/']) →
      (R.scheme = [] → R.authority = [] →
        splitScheme (ParseResult.toStr R) = none) →
      urlparse idna (ParseResult.toStr R) [] = .ok R := by
  intro idna url kwargs R hidna hprod hlen h1 hhost h4 h2 h3
  obtain ⟨_, _, hval, hnorm⟩ := urlparse_ok_checks hprod
  obtain ⟨ph, pp, pa, he, hp, hpa, hR⟩ := normalizeComponents_ok_inv hnorm
  subst hR
  refine roundtrip_core idna _ (scheme_shape hval) (pyLower_idem _)
    (quote_idem _ _) (quote_chars _ _) (encode_host_ok_printable hidna he)
    hhost h1 (quote_idem _ _) (quote_chars _ _) ?_ ?_ ?_ h4 hlen h2 h3
  · -- authority nonempty forces a validated, normalized path
    intro hAne
    by_cases ht : authorityTruthy
        (mergeComponents (preprocessKwargs kwargs) url).userinfo
        (mergeComponents (preprocessKwargs kwargs) url).host
        (mergeComponents (preprocessKwargs kwargs) url).port = true
    · obtain ⟨hsh, hpaeq⟩ := pathStep_ok_truthy hpa ht
      subst hpaeq
      constructor
      · rcases normalize_path_abs hsh with hnp | ⟨hne, hh⟩
        · left
          rw [hnp]
          rfl
        · right
          exact quote_path_head hne hh
      · exact np_quote_fix (by decide)
    · exfalso
      have hfalse : authorityTruthy
          (mergeComponents (preprocessKwargs kwargs) url).userinfo
          (mergeComponents (preprocessKwargs kwargs) url).host
          (mergeComponents (preprocessKwargs kwargs) url).port = false := by
        cases hb : authorityTruthy
            (mergeComponents (preprocessKwargs kwargs) url).userinfo
            (mergeComponents (preprocessKwargs kwargs) url).host
            (mergeComponents (preprocessKwargs kwargs) url).port
        · rfl
        · exact absurd hb ht
      obtain ⟨hu0, hh0, hp0⟩ := authorityTruthy_false hfalse
      have hph : ph = [] := by
        rw [hh0] at he
        exact (Except.ok.inj he).symm
      have hpp : pp = none := by
        rcases hp0 with hp0 | hp0 <;> rw [hp0] at hp
        · exact (Except.ok.inj hp).symm
        · exact (Except.ok.inj hp).symm
      subst hph
      subst hpp
      apply hAne
      rw [hu0]
      rfl
  · intro q hq
    obtain ⟨q0, hq0, rfl⟩ := Option.map_eq_some'.mp hq
    exact ⟨quote_idem _ _, quote_chars _ _⟩
  · intro f hf
    obtain ⟨f0, hf0, rfl⟩ := Option.map_eq_some'.mp hf
    exact ⟨quote_idem _ _, quote_chars _ _⟩

/-- Witness for the amended C1 at a concrete parse of
`"http://example.com:8080/a?b#c"`. -/
theorem c1_amended_witness :
    urlparse (fun _ => none)
      (ParseResult.toStr ⟨"http".toList, [], "example.com".toList, some 8080,
        "/a".toList, some ['b'], some ['c']⟩) [] =
      .ok ⟨"http".toList, [], "example.com".toList, some 8080, "/a".toList,
        some ['b'], some ['c']⟩ := by
  have h8 : natToStr 8080 = "8080".toList := by
    rw [natToStr, dif_neg (by norm_num : ¬ (8080 : Nat) < 10)]
    rw [show (8080 : Nat) / 10 = 808 from by norm_num]
    rw [natToStr, dif_neg (by norm_num : ¬ (808 : Nat) < 10)]
    rw [show (808 : Nat) / 10 = 80 from by norm_num]
    rw [natToStr, dif_neg (by norm_num : ¬ (80 : Nat) < 10)]
    rw [show (80 : Nat) / 10 = 8 from by norm_num]
    rw [natToStr, dif_pos (by norm_num : (8 : Nat) < 10)]
    decide
  have hi : intToStr 8080 = "8080".toList := by
    rw [intToStr, if_neg (by norm_num : ¬ (8080 : Int) < 0)]
    rw [show ((8080 : Int)).toNat = 8080 from rfl]
    exact h8
  have ht : ParseResult.toStr ⟨"http".toList, [], "example.com".toList,
      some 8080, "/a".toList, some ['b'], some ['c']⟩ =
      "http://example.com:8080/a?b#c".toList := by
    unfold ParseResult.toStr ParseResult.authority
    dsimp only
    rw [hi]
    decide
  exact c1_amended (fun _ => none) "http://example.com:8080/a?b#c".toList []
    ⟨"http".toList, [], "example.com".toList, some 8080, "/a".toList,
      some ['b'], some ['c']⟩
    (fun s t h => Option.noConfusion h) (by decide) (by rw [ht]; decide)
    (by decide) (by decide)
    (fun p hp => by
      have hp8 : (8080 : Int) = p := Option.some.inj hp
      rw [← hp8]
      decide)
    (by decide) (by decide)

end UrlParse
